import Mathlib

/-!
Verification development for the outfit-assembly core of the
BackEnd-StyleFinderAI repository.

The definitions below are a shallow embedding of the Python sources:

* `src/ai/src/assemble_outfit.py` — the knapsack dynamic program
  (`_run_knapsack_dp`), the optimizer driver (`get_outfit`) and the
  outcome selector (`select_final_outfit_and_metrics`);
* `src/ai/src/app.py` — the refinement controller inside
  `outfit_recommendation_handler` (the `normalize` helper, the carry-over
  block and the locking block).

Modelling conventions:

* Monetary amounts and similarity scores are rationals (`ℚ`); Python's
  `int(round(x * 100))` is modelled by `(round (100 * x)).toNat` using
  Mathlib's `round` (Python uses round-half-to-even, which differs from
  Mathlib's round-half-up only at exact half values; the theorems below
  either avoid these boundary points or assume cent-precise inputs).
* Python dictionaries holding item data become a fixed structure `Item`
  with the six keys rebuilt by `format_results`.
* Python code that raises an uncaught exception is modelled by
  `Except.error` carrying the exception description.
* `numpy` arrays indexed by a cost in cents become functions `ℕ → ℚ`
  (value table, `-1` is the unreachable sentinel, exactly as in the
  source) and `ℕ → Option ℕ` (path table rows, `none` is the `-1`
  sentinel of the source).
-/

namespace StyleFinder

/-! ## Data model -/

/-- A retrieved candidate as rebuilt by `format_results`
(`assemble_outfit.py` lines 5-18): title, url, id, similarity,
image_link, price. -/
structure Item where
  id : ℕ
  title : String
  url : String
  image_link : String
  price : ℚ
  similarity : ℚ
  deriving DecidableEq, Repr

/-- A pre-processed candidate (`assemble_outfit.py` lines 128-137):
`price_in_cents`, `similarity` and a reference to the original data.
Prices are non-negative by the data model, hence `ℕ` cents. -/
structure PItem where
  price_in_cents : ℕ
  similarity : ℚ
  data : Item
  deriving DecidableEq, Repr

/-- Models Python `int(round(price * 100))` (`assemble_outfit.py`
line 133).  For a negative argument Python keeps the negative integer;
the data model guarantees non-negative prices, so `Int.toNat` is exact
on the intended domain. -/
def toCents (q : ℚ) : ℤ := round (100 * q)

/-- Pre-processing of one candidate (`assemble_outfit.py` lines 131-136). -/
def processItem (it : Item) : PItem :=
  { price_in_cents := (toCents it.price).toNat
    similarity := it.similarity
    data := it }

/-- The 0-cost 0-similarity skip placeholder (`assemble_outfit.py`
lines 145-149).  Its `data` dictionary in Python only has `title` and
`price`; the remaining fields are defaulted here. -/
def skip_item : PItem :=
  { price_in_cents := 0
    similarity := 0
    data := { id := 0, title := "SKIP", url := "", image_link := "",
              price := 0, similarity := 0 } }

/-- Models Python `round(x, 4)` as used through `float(f"...")`
formatting in `format_results` (line 14). -/
def round4 (q : ℚ) : ℚ := round (10000 * q) / 10000

/-- Models Python `round(x, 2)` (presentation-boundary rounding,
`assemble_outfit.py` lines 259-260). -/
def round2 (q : ℚ) : ℚ := round (100 * q) / 100

/-- One entry of the `format_results` output (lines 8-17): the same six
keys, with the similarity re-rendered at 4 decimal places. -/
def formatOne (it : Item) : Item := { it with similarity := round4 it.similarity }

/-- `format_results` (`assemble_outfit.py` lines 5-18). -/
def format_results (outfit_list : List Item) : List Item := outfit_list.map formatOne

/-- A rational that is a whole number of minor currency units; the
domain on which `toCents` is exact. -/
def CentPrec (q : ℚ) : Prop := ∃ k : ℤ, 100 * q = (k : ℚ)

/-! ## Python string helpers (shallow embedding of `str.lower`,
`str.strip`, `str.endswith`, slicing) used by `normalize` in
`app.py` lines 185-189.  They are modelled directly on the character
list so that they evaluate by `decide`; the categories handled by the
system are ASCII. -/

def pyLower (s : String) : String := String.mk (s.data.map Char.toLower)

def pyStrip (s : String) : String :=
  String.mk (((s.data.dropWhile Char.isWhitespace).reverse.dropWhile
    Char.isWhitespace).reverse)

/-- `normalize` (`app.py` lines 185-189): empty stays empty, otherwise
lowercase, strip, and drop one trailing `s`. -/
def normalize (s : String) : String :=
  if s = "" then ""
  else
    let t := pyStrip (pyLower s)
    if t.data.getLast? = some 's' then String.mk t.data.dropLast else t

/-! ## Refinement controller (`app.py` lines 240-306) -/

/-- An item of the previous outfit as stored in the chat history
(`format_results` output plus the `main_category` column).  Optional
fields model dictionary keys that may be absent (`prev_item.get`). -/
structure PrevItem where
  main_category : String
  price : Option ℚ
  similarity : Option ℚ
  id : Option ℕ
  title : Option String
  deriving DecidableEq, Repr

/-- One entry of the parsed per-category plan (`parsed_item_list`):
the keys appended by the carry-over block at `app.py` lines 261-267. -/
structure PlanItem where
  category : String
  items : List String
  color_palette : String
  pattern : String
  description : String
  deriving DecidableEq, Repr

/-- Membership test in the changed-category set by normalized name
(`app.py` lines 251-255 and 281-285). -/
def isChanged (changed_categories : List String) (category : String) : Bool :=
  changed_categories.any (fun c => normalize c == normalize category)

/-- The carry-over block (`app.py` lines 240-267): for every previous
item whose category is non-empty, missing from the new plan (by
normalized name, computed once from the original plan) and not in the
changed set, append a synthesized `PlanItem`.  Its description is the
Python f-string `f"..."` of the category label. -/
def carryOver (parsed_item_list : List PlanItem) (last_outfit : List PrevItem)
    (changed_categories : List String) : List PlanItem :=
  if last_outfit.isEmpty then parsed_item_list
  else
    let new_plan_categories := parsed_item_list.map (fun it => normalize it.category)
    parsed_item_list ++ last_outfit.filterMap (fun prev =>
      if prev.main_category ≠ "" ∧
          normalize prev.main_category ∉ new_plan_categories ∧
          ¬ (isChanged changed_categories prev.main_category : Prop) then
        some { category := prev.main_category, items := [], color_palette := "",
               pattern := "", description := prev.main_category }
      else none)

/-- The pseudo-candidate built by the locking block (`app.py` lines
294-298): a dictionary initialized with `price = prev.get('price', 0)`
and `similarity = 1.0`, then updated (`dict.update`) with every key of
the previous item, so stored keys override the defaults. -/
structure LockedCand where
  price : ℚ
  similarity : ℚ
  main_category : String
  deriving DecidableEq, Repr

def buildLockedCandidate (prev : PrevItem) : LockedCand :=
  { price := prev.price.getD 0
    similarity := prev.similarity.getD 1
    main_category := prev.main_category }

/-- First previous item matching the category by normalized name
(`app.py` lines 288-299). -/
def findPrev (last_outfit : List PrevItem) (category : String) : Option PrevItem :=
  last_outfit.find? (fun p => normalize p.main_category == normalize category)

/-- The per-category candidate-list decision of the locking block
(`app.py` lines 274-306): `some [c]` when the category is locked to the
single pseudo-candidate `c`, `none` when a placeholder is appended and
the category is forwarded to retrieval. -/
def lockedCandidateList (last_outfit : List PrevItem) (changed_categories : List String)
    (category : String) : Option (List LockedCand) :=
  if ¬ last_outfit.isEmpty ∧ ¬ (isChanged changed_categories category : Prop) then
    (findPrev last_outfit category).map (fun prev => [buildLockedCandidate prev])
  else none

/-! ## The knapsack dynamic program (`_run_knapsack_dp`,
`assemble_outfit.py` lines 22-107).

The DP state is the pair of the value table `new_dp_similarity`
(`ℕ → ℚ`, `-1` marking unreachable costs) and the row `path_table[i+1]`
being filled during the current category (`ℕ → Option ℕ`, `none` for
the `-1` sentinel). -/

/-- The body of the innermost loop (lines 53-65): try item
`p = (item_idx, item)` from cost `c`; overwrite the target bucket when
the new total similarity strictly exceeds the stored one. -/
def itemStep (curDp : ℕ → ℚ) (W c : ℕ) (st : (ℕ → ℚ) × (ℕ → Option ℕ))
    (p : ℕ × PItem) : (ℕ → ℚ) × (ℕ → Option ℕ) :=
  let nc := c + p.2.price_in_cents
  if nc ≤ W ∧ st.1 nc < curDp c + p.2.similarity then
    (Function.update st.1 nc (curDp c + p.2.similarity),
     Function.update st.2 nc (some p.1))
  else st

/-- The body of the middle loop (lines 48-65): a cost bucket is only
expanded when it was reachable before this category (`current_dp[cost]
>= 0`). -/
def costStep (curDp : ℕ → ℚ) (items : List PItem) (W : ℕ)
    (st : (ℕ → ℚ) × (ℕ → Option ℕ)) (c : ℕ) : (ℕ → ℚ) × (ℕ → Option ℕ) :=
  if 0 ≤ curDp c then (items.enum).foldl (itemStep curDp W c) st else st

/-- Processing of one category (lines 44-67): the new value table
starts as a copy of the current one, the path row starts all `-1`. -/
def runStage (curDp : ℕ → ℚ) (items : List PItem) (W : ℕ) :
    (ℕ → ℚ) × (ℕ → Option ℕ) :=
  (List.range (W + 1)).foldl (costStep curDp items W) (curDp, fun _ => none)

/-- The initial value table (lines 35-36): cost 0 reachable with
similarity 0, everything else `-1`. -/
def dp0 : ℕ → ℚ := fun w => if w = 0 then 0 else -1

/-- The main iteration over categories (lines 42-67), also collecting
the filled path-table rows in category order. -/
def runDP (W : ℕ) : List (List PItem) → (ℕ → ℚ) →
    ((ℕ → ℚ) × List (ℕ → Option ℕ))
  | [], dp => (dp, [])
  | items :: rest, dp =>
    let st := runStage dp items W
    let r := runDP W rest st.1
    (r.1, st.2 :: r.2)

/-- One step of the final scan (lines 74-77). -/
def scanStep (dp : ℕ → ℚ) (acc : ℚ × ℤ) (c : ℕ) : ℚ × ℤ :=
  if acc.1 < dp c then (dp c, (c : ℤ)) else acc

/-- The final scan (lines 70-77): walk the cost buckets from the budget
down to 0, keeping the first strictly better similarity; returns
`(best_similarity, best_cost_cents)`, initialized to `(-1, -1)`. -/
def bestScan (dp : ℕ → ℚ) (W : ℕ) : ℚ × ℤ :=
  ((List.range (W + 1)).reverse).foldl (scanStep dp) (-1, -1)

/-- One step of the traceback (lines 87-102), processing one category
(from the last one backwards).  A recorded index that is not the
0-cost 0-similarity skip placeholder contributes its original data and
lowers the running cost.  A recorded index outside the candidate list
would raise `IndexError` in Python; it is unreachable (every recorded
index is in range) and modelled as a no-op. -/
def traceStep (acc : List Item × ℕ) (pr : List PItem × (ℕ → Option ℕ)) :
    List Item × ℕ :=
  (pr.2 acc.2).elim acc (fun idx =>
    (pr.1.get? idx).elim acc (fun sel =>
      if sel.price_in_cents ≠ 0 ∨ sel.similarity ≠ 0 then
        (sel.data :: acc.1, acc.2 - sel.price_in_cents)
      else acc))

/-- The traceback loop (lines 79-105): categories are processed in
reverse order; Python appends and reverses at the end, which is the
same as consing while walking backwards. -/
def traceback (prs : List (List PItem × (ℕ → Option ℕ))) (best_cost : ℕ) :
    List Item :=
  ((prs.reverse).foldl traceStep ([], best_cost)).1

/-- `_run_knapsack_dp` (lines 22-107).  The `num_categories` argument
mirrors the Python signature; both call sites pass the length of
`processed_candidates`, and the traceback pairs each category with its
path-table row accordingly. -/
def run_knapsack_dp (processed_candidates : List (List PItem))
    (max_budget_cents : ℕ) (num_categories : ℕ) : List Item × ℚ × ℤ :=
  let r := runDP max_budget_cents processed_candidates dp0
  let best := bestScan r.1 max_budget_cents
  let outfit :=
    if 0 ≤ best.2 ∧ 0 < best.1 then
      traceback (processed_candidates.zip r.2) best.2.toNat
    else []
  (outfit, best.1, best.2)

/-! ## `get_outfit` (`assemble_outfit.py` lines 110-189) -/

/-- Python `max` over a list of prices; the empty case raises
`ValueError` and is guarded before this is evaluated. -/
def listMax : List ℚ → ℚ
  | [] => 0
  | x :: xs => xs.foldl max x

/-- The four components returned by `get_outfit` (line 184-189). -/
structure GetOutfitResult where
  feasible_outfit : List Item
  feasible_remaining_budget : ℚ
  best_full_outfit : List Item
  best_full_cost : ℚ
  deriving DecidableEq, Repr

/-- The feasible candidate lists: each category is prefixed with the
skip placeholder at index 0 (lines 142-150). -/
def feasibleLists (original : List (List PItem)) : List (List PItem) :=
  original.map (fun category_items => skip_item :: category_items)

/-- `get_outfit` (lines 110-189).  The budget is optional because the
caller (`app.py` line 176) normalizes a missing or zero budget to
`None`; line 119 then evaluates `budget * 100`, which raises
`TypeError` for `None`.  Line 123 takes `max` over each candidate
list, which raises `ValueError` on an empty category.  A negative
budget would make `np.full` raise inside the first DP call; both
callers only reach this with a positive or absent budget. -/
def get_outfit (all_candidates : List (List Item)) (budget : Option ℚ) :
    Except String GetOutfitResult :=
  match budget with
  | none => .error "TypeError: unsupported operand type(s) for *: NoneType and int"
  | some b =>
    let max_budget_cents : ℤ := round (100 * b)
    if all_candidates.any (·.isEmpty) then
      .error "ValueError: max() arg is an empty sequence"
    else if max_budget_cents < 0 then
      .error "ValueError: negative dimensions are not allowed"
    else
      let num_categories := all_candidates.length
      let max_total_possible_price : ℚ :=
        (all_candidates.map (fun cat => listMax (cat.map Item.price))).sum
      let huge_budget_cents : ℤ := round (100 * max_total_possible_price) + max_budget_cents + 1000
      let original_processed_candidates := all_candidates.map (fun cat => cat.map processItem)
      let feas := run_knapsack_dp (feasibleLists original_processed_candidates)
        max_budget_cents.toNat num_categories
      let feasible_remaining_budget : ℚ := b - (feas.2.2 : ℚ) / 100
      let full := run_knapsack_dp original_processed_candidates
        huge_budget_cents.toNat num_categories
      let best_full_cost : ℚ := (full.2.2 : ℚ) / 100
      .ok { feasible_outfit := format_results feas.1
            feasible_remaining_budget := feasible_remaining_budget
            best_full_outfit := format_results full.1
            best_full_cost := best_full_cost }

/-! ## `select_final_outfit_and_metrics` (`assemble_outfit.py`
lines 191-263) -/

/-- The message template attached to a successful selection, with the
numeric values interpolated into the Python f-string.  Rendering the
final string is a presentation concern; the constructor records which
template and which values are used. -/
inductive Message where
  | fullOutfitFound
  | partialOutfit (num_feasible num_required : ℕ) (budget best_full_cost : ℚ)
  | budgetConstraint (budget best_full_cost : ℚ)
  deriving DecidableEq, Repr

/-- A returned dictionary: either one of the error dictionaries (with
`error`, `detail`, `status_code`) or the success dictionary (lines
257-263). -/
inductive SelResult where
  | errorResult (error detail : String) (status_code : ℕ)
  | success (outfit : List Item) (cost remaining_budget : ℚ)
      (message : Message) (status_code : ℕ)
  deriving DecidableEq, Repr

/-- The three-way case split (lines 211-245), producing either the
early `No Candidates Found` return or the assignment of
`(outfit_to_display, display_cost, final_remaining_budget, message)`.
Branches that interpolate or subtract the budget raise `TypeError`
when it is `None`. -/
def selectCases (all_candidates : List (List Item)) (budget : Option ℚ)
    (feasible_outfit : List Item) (remaining_budget : ℚ)
    (best_full_outfit : List Item) (best_full_cost : ℚ) :
    Except String (SelResult ⊕ (List Item × ℚ × ℚ × Message)) :=
  let num_required_items := all_candidates.length
  let num_feasible_items := feasible_outfit.length
  if num_feasible_items = num_required_items then
    budget.elim
      (.error "TypeError: unsupported operand type(s) for -: NoneType and float")
      (fun b => .ok (.inr (feasible_outfit, b - remaining_budget, remaining_budget,
        Message.fullOutfitFound)))
  else if 0 < num_feasible_items ∧ num_feasible_items < num_required_items then
    budget.elim
      (.error "TypeError: unsupported format string passed to NoneType.__format__")
      (fun b => .ok (.inr (feasible_outfit, b - remaining_budget, remaining_budget,
        Message.partialOutfit num_feasible_items num_required_items b best_full_cost)))
  else
    if best_full_outfit.isEmpty then
      .ok (.inl (.errorResult "No Candidates Found"
        "Failed to find *any* matching items across all categories in the database." 404))
    else
      budget.elim
        (.error "TypeError: unsupported format string passed to NoneType.__format__")
        (fun b => .ok (.inr (best_full_outfit, best_full_cost, b - best_full_cost,
          Message.budgetConstraint b best_full_cost)))

/-- `select_final_outfit_and_metrics` (lines 191-263): the case split,
then the final guard against an empty display list (lines 249-254),
then the success dictionary with presentation rounding (lines 257-263). -/
def select_final_outfit_and_metrics (all_candidates : List (List Item))
    (budget : Option ℚ) (feasible_outfit : List Item) (remaining_budget : ℚ)
    (best_full_outfit : List Item) (best_full_cost : ℚ) :
    Except String SelResult :=
  match selectCases all_candidates budget feasible_outfit remaining_budget
      best_full_outfit best_full_cost with
  | .error e => .error e
  | .ok (.inl r) => .ok r
  | .ok (.inr (outfit_to_display, display_cost, final_remaining_budget, message)) =>
    if outfit_to_display.isEmpty then
      .ok (.errorResult "Critical Assembly Error"
        "Outfit assembly returned an empty result list after processing. Check database connectivity and retrieval logic." 500)
    else
      .ok (.success outfit_to_display (round2 display_cost)
        (round2 final_remaining_budget) message 200)

/-! ## Basic helper lemmas -/

theorem select_final_of_error {all_candidates budget feasible_outfit
    remaining_budget best_full_outfit best_full_cost e}
    (h : selectCases all_candidates budget feasible_outfit remaining_budget
      best_full_outfit best_full_cost = .error e) :
    select_final_outfit_and_metrics all_candidates budget feasible_outfit
      remaining_budget best_full_outfit best_full_cost = .error e := by
  rw [select_final_outfit_and_metrics, h]

theorem select_final_of_inl {all_candidates budget feasible_outfit
    remaining_budget best_full_outfit best_full_cost r}
    (h : selectCases all_candidates budget feasible_outfit remaining_budget
      best_full_outfit best_full_cost = .ok (.inl r)) :
    select_final_outfit_and_metrics all_candidates budget feasible_outfit
      remaining_budget best_full_outfit best_full_cost = .ok r := by
  rw [select_final_outfit_and_metrics, h]

theorem select_final_of_inr {all_candidates budget feasible_outfit
    remaining_budget best_full_outfit best_full_cost o c r m}
    (h : selectCases all_candidates budget feasible_outfit remaining_budget
      best_full_outfit best_full_cost = .ok (.inr (o, c, r, m)))
    (ho : o.isEmpty = false) :
    select_final_outfit_and_metrics all_candidates budget feasible_outfit
      remaining_budget best_full_outfit best_full_cost
      = .ok (.success o (round2 c) (round2 r) m 200) := by
  rw [select_final_outfit_and_metrics, h]
  simp [ho]

theorem select_final_of_inr_empty {all_candidates budget feasible_outfit
    remaining_budget best_full_outfit best_full_cost o c r m}
    (h : selectCases all_candidates budget feasible_outfit remaining_budget
      best_full_outfit best_full_cost = .ok (.inr (o, c, r, m)))
    (ho : o.isEmpty = true) :
    select_final_outfit_and_metrics all_candidates budget feasible_outfit
      remaining_budget best_full_outfit best_full_cost
      = .ok (.errorResult "Critical Assembly Error"
        "Outfit assembly returned an empty result list after processing. Check database connectivity and retrieval logic." 500) := by
  rw [select_final_outfit_and_metrics, h]
  simp [ho]

theorem CentPrec.sub {a b : ℚ} (ha : CentPrec a) (hb : CentPrec b) :
    CentPrec (a - b) := by
  obtain ⟨ka, hka⟩ := ha
  obtain ⟨kb, hkb⟩ := hb
  exact ⟨ka - kb, by push_cast; rw [mul_sub, hka, hkb]⟩

theorem round2_eq_self {q : ℚ} (h : CentPrec q) : round2 q = q := by
  obtain ⟨k, hk⟩ := h
  have h100 : (100 : ℚ) ≠ 0 := by norm_num
  have hq : q = (k : ℚ) / 100 := by
    field_simp
    linarith [hk]
  rw [round2, hk, round_intCast, hq]

/-- A concrete item used in witnesses and counterexamples. -/
def exItem : Item :=
  { id := 1, title := "linen shirt", url := "u", image_link := "img",
    price := 20, similarity := 1 }

/-! ## Claim C1 -/

/-- C1 counterexample: a previous item that stores similarity `0` for
category `top`, with an empty changed set, is locked as the single
pseudo-candidate — but that candidate's similarity is the stored `0`,
not the claimed maximum `1.0`: `dict.update(prev_item)` overwrites the
`1.0` default with the stored field. -/
theorem locked_candidate_keeps_stored_similarity :
    lockedCandidateList [⟨"top", some 20, some 0, none, none⟩] [] "top"
      = some [{ price := 20, similarity := 0, main_category := "top" }]
    ∧ (0 : ℚ) ≠ 1 := by
  constructor
  · rfl
  · norm_num

/-- C1 (amended): when the category is not in the changed set and a
previous item exists for its normalized name, the candidate list is
set to exactly one pseudo-candidate; its similarity equals the
previous item's stored similarity when one is stored, and `1.0` only
as the default for a missing field. -/
theorem locking_sets_single_pseudo_candidate
    (last_outfit : List PrevItem) (changed_categories : List String)
    (category : String) (prev : PrevItem)
    (hne : last_outfit ≠ [])
    (hch : isChanged changed_categories category = false)
    (hfind : findPrev last_outfit category = some prev) :
    lockedCandidateList last_outfit changed_categories category
      = some [buildLockedCandidate prev]
    ∧ (buildLockedCandidate prev).similarity = prev.similarity.getD 1 := by
  refine ⟨?_, rfl⟩
  rw [lockedCandidateList, if_pos, hfind, Option.map_some']
  refine ⟨?_, ?_⟩
  · simpa [List.isEmpty_iff] using hne
  · simp [hch]

/-- C1 witness: the amended theorem applied to the concrete previous
item of the counterexample. -/
theorem locking_sets_single_pseudo_candidate_witness :
    lockedCandidateList [⟨"top", some 20, some 0, none, none⟩] ["shoes"] "top"
      = some [buildLockedCandidate ⟨"top", some 20, some 0, none, none⟩]
    ∧ (buildLockedCandidate ⟨"top", some 20, some 0, none, none⟩).similarity
      = (some (0 : ℚ)).getD 1 :=
  locking_sets_single_pseudo_candidate _ _ _ _ (by decide) (by decide) (by decide)

/-! ## Claim C9 -/

/-- C9 counterexample: a previous `hat` absent from an empty new plan
and not in the changed set is carried over, but the synthesized
request's description is the category label `"hat"`, not the empty
string claimed by the spec. -/
theorem carryover_description_not_empty :
    (carryOver [] [⟨"hat", none, none, none, none⟩] []).map PlanItem.description
      = ["hat"]
    ∧ "hat" ≠ "" := by
  constructor
  · rfl
  · decide

/-- C9 (amended): for every category present in the previous outfit
(with a non-empty label), absent from the new plan and not in the
changed set, a carry-over request is synthesized whose description
equals the category label (the code uses the label itself as a dummy
description, not the empty string); every synthesized (non-original)
request satisfies this. -/
theorem carryover_synthesizes_label_description
    (parsed_item_list : List PlanItem) (last_outfit : List PrevItem)
    (changed_categories : List String) (prev : PrevItem)
    (hmem : prev ∈ last_outfit)
    (hcat : prev.main_category ≠ "")
    (hmiss : normalize prev.main_category ∉
      parsed_item_list.map (fun it => normalize it.category))
    (hch : isChanged changed_categories prev.main_category = false) :
    ({ category := prev.main_category, items := [], color_palette := "",
       pattern := "", description := prev.main_category } : PlanItem)
      ∈ carryOver parsed_item_list last_outfit changed_categories
    ∧ ∀ q ∈ carryOver parsed_item_list last_outfit changed_categories,
        q ∉ parsed_item_list → q.description = q.category := by
  have hlne : last_outfit.isEmpty = false := by
    cases last_outfit with
    | nil => cases hmem
    | cons a l => rfl
  constructor
  · rw [carryOver, if_neg (by simp [hlne])]
    refine List.mem_append_right _ ?_
    refine List.mem_filterMap.2 ⟨prev, hmem, ?_⟩
    rw [if_pos ⟨hcat, hmiss, by simp [hch]⟩]
  · intro q hq hqnot
    rw [carryOver, if_neg (by simp [hlne])] at hq
    rcases List.mem_append.1 hq with h | h
    · exact absurd h hqnot
    · obtain ⟨p, _, hp⟩ := List.mem_filterMap.1 h
      split_ifs at hp
      cases hp
      rfl

/-- C9 witness: the amended theorem at the concrete previous item. -/
theorem carryover_synthesizes_label_description_witness :
    ({ category := "hat", items := [], color_palette := "",
       pattern := "", description := "hat" } : PlanItem)
      ∈ carryOver [] [⟨"hat", none, none, none, none⟩] []
    ∧ ∀ q ∈ carryOver [] [⟨"hat", none, none, none, none⟩] [],
        q ∉ ([] : List PlanItem) → q.description = q.category :=
  carryover_synthesizes_label_description [] [⟨"hat", none, none, none, none⟩] []
    ⟨"hat", none, none, none, none⟩ (by decide) (by decide) (by decide) (by decide)

/-! ## Claim C2 -/

/-- C2: with an absent budget, `get_outfit` does not delegate to the
full-outfit optimizer at all — line 119 evaluates `budget * 100` with
`budget = None` and raises `TypeError` before any optimization runs.
This holds for every candidate matrix. -/
theorem get_outfit_absent_budget_raises (all_candidates : List (List Item)) :
    get_outfit all_candidates none
      = .error "TypeError: unsupported operand type(s) for *: NoneType and int" :=
  rfl

/-! ## Claim C4 -/

/-- C4: with an absent budget, the Outcome Selector never presents any
outfit and never reports an absent remaining budget — every branch
that would present a selection first subtracts or formats the `None`
budget and raises `TypeError`; at the concrete full-coverage input the
call dies on `budget - remaining_budget`. -/
theorem selector_absent_budget_raises :
    select_final_outfit_and_metrics [[exItem]] none [exItem] 0 [exItem] 20
      = .error "TypeError: unsupported operand type(s) for -: NoneType and float"
    ∧ ∀ (cats : List (List Item)) (feas : List Item) (rem : ℚ)
        (full : List Item) (fc : ℚ) (out : List Item) (c r : ℚ)
        (m : Message) (s : ℕ),
        select_final_outfit_and_metrics cats none feas rem full fc
          ≠ .ok (.success out c r m s) := by
  constructor
  · rfl
  · intro cats feas rem full fc out c r m s
    have hcases :
        selectCases cats none feas rem full fc
          = .error "TypeError: unsupported operand type(s) for -: NoneType and float"
        ∨ selectCases cats none feas rem full fc
          = .error "TypeError: unsupported format string passed to NoneType.__format__"
        ∨ selectCases cats none feas rem full fc
            = .ok (.inl (.errorResult "No Candidates Found"
              "Failed to find *any* matching items across all categories in the database." 404)) := by
      rw [selectCases]
      by_cases h1 : feas.length = cats.length
      · rw [if_pos h1]
        exact Or.inl rfl
      · rw [if_neg h1]
        by_cases h2 : 0 < feas.length ∧ feas.length < cats.length
        · rw [if_pos h2]
          exact Or.inr (Or.inl rfl)
        · rw [if_neg h2]
          by_cases h3 : full.isEmpty
          · rw [if_pos h3]
            exact Or.inr (Or.inr rfl)
          · rw [if_neg h3]
            exact Or.inr (Or.inl rfl)
    rcases hcases with h | h | h
    · rw [select_final_of_error h]
      simp
    · rw [select_final_of_error h]
      simp
    · rw [select_final_of_inl h]
      simp

/-! ## Claim C6 -/

/-- C6: with a finite budget, at least one required category, and an
empty feasible selection, the selector returns the `No Candidates
Found` error (status 404) exactly when the full selection is also
empty; otherwise it presents the full selection with the
budget-insufficient message and remaining budget `budget - full.cost`
(rounded at the presentation boundary; exact whenever the budget and
the full cost are whole cents). -/
theorem selector_zero_coverage_cases (all_candidates : List (List Item))
    (b : ℚ) (remaining_budget : ℚ) (best_full_outfit : List Item)
    (best_full_cost : ℚ) (hreq : all_candidates ≠ []) :
    (select_final_outfit_and_metrics all_candidates (some b) [] remaining_budget
        best_full_outfit best_full_cost
      = .ok (.errorResult "No Candidates Found"
          "Failed to find *any* matching items across all categories in the database." 404)
      ↔ best_full_outfit = [])
    ∧ (best_full_outfit ≠ [] →
        select_final_outfit_and_metrics all_candidates (some b) [] remaining_budget
          best_full_outfit best_full_cost
        = .ok (.success best_full_outfit (round2 best_full_cost)
            (round2 (b - best_full_cost))
            (.budgetConstraint b best_full_cost) 200))
    ∧ (CentPrec b → CentPrec best_full_cost →
        round2 (b - best_full_cost) = b - best_full_cost) := by
  have hlen : ¬ (([] : List Item).length = all_candidates.length) := by
    intro h
    exact hreq (List.length_eq_zero.1 h.symm)
  have hsucc : best_full_outfit ≠ [] →
      select_final_outfit_and_metrics all_candidates (some b) [] remaining_budget
        best_full_outfit best_full_cost
      = .ok (.success best_full_outfit (round2 best_full_cost)
          (round2 (b - best_full_cost))
          (.budgetConstraint b best_full_cost) 200) := by
    intro hne
    have hE : best_full_outfit.isEmpty = false := by
      cases best_full_outfit with
      | nil => exact absurd rfl hne
      | cons a l => rfl
    refine select_final_of_inr ?_ hE
    rw [selectCases, if_neg hlen, if_neg (by simp), if_neg (by simp [hE])]
    rfl
  refine ⟨?_, hsucc, ?_⟩
  · constructor
    · intro h
      by_contra hne
      rw [hsucc hne] at h
      simp at h
    · intro h
      subst h
      refine select_final_of_inl ?_
      rw [selectCases, if_neg hlen, if_neg (by simp), if_pos (by rfl)]
  · intro hb hc
    exact round2_eq_self (hb.sub hc)

/-- C6 witness: the zero-coverage case at a concrete input with a
non-empty full selection. -/
theorem selector_zero_coverage_cases_witness :
    select_final_outfit_and_metrics [[exItem]] (some 30) [] 30 [exItem] 20
      = .ok (.success [exItem] (round2 20) (round2 ((30 : ℚ) - 20))
          (.budgetConstraint 30 20) 200)
    ∧ round2 ((30 : ℚ) - 20) = (30 : ℚ) - 20 := by
  have h := selector_zero_coverage_cases [[exItem]] 30 30 [exItem] 20 (by decide)
  exact ⟨h.2.1 (by decide), h.2.2 ⟨3000, by norm_num⟩ ⟨2000, by norm_num⟩⟩

/-! ## Claim C10 -/

/-- C10 counterexample: with zero required categories but a non-empty
feasible selection, the selector returns a success dictionary, not the
`Critical Assembly Error` — so the 500 guard does not fire exactly
when the required-category count is zero. -/
theorem critical_error_not_iff_zero_categories :
    ([] : List (List Item)).length = 0
    ∧ select_final_outfit_and_metrics [] (some 10) [exItem] 0 [exItem] 5
      = .ok (.success [exItem] (round2 5) (round2 ((10 : ℚ) - 5))
          (.budgetConstraint 10 5) 200) :=
  ⟨rfl, rfl⟩

/-- C10 (amended): the `Critical Assembly Error` guard is unreachable
whenever at least one category is required; the selector returns that
error exactly when the budget is present, the required-category count
is zero and the feasible selection is empty. -/
theorem critical_guard_characterization (all_candidates : List (List Item))
    (budget : Option ℚ) (feasible_outfit : List Item) (remaining_budget : ℚ)
    (best_full_outfit : List Item) (best_full_cost : ℚ) :
    (all_candidates ≠ [] → ∀ d : String,
      select_final_outfit_and_metrics all_candidates budget feasible_outfit
        remaining_budget best_full_outfit best_full_cost
        ≠ .ok (.errorResult "Critical Assembly Error" d 500))
    ∧ ((select_final_outfit_and_metrics all_candidates budget feasible_outfit
          remaining_budget best_full_outfit best_full_cost
        = .ok (.errorResult "Critical Assembly Error"
            "Outfit assembly returned an empty result list after processing. Check database connectivity and retrieval logic." 500))
      ↔ (budget.isSome ∧ all_candidates = [] ∧ feasible_outfit = [])) := by
  have main : ∀ d : String,
      select_final_outfit_and_metrics all_candidates budget feasible_outfit
        remaining_budget best_full_outfit best_full_cost
        = .ok (.errorResult "Critical Assembly Error" d 500)
      → budget.isSome ∧ all_candidates = [] ∧ feasible_outfit = [] := by
    intro d h
    by_cases h1 : feasible_outfit.length = all_candidates.length
    · cases budget with
      | none =>
        rw [select_final_of_error (e := "TypeError: unsupported operand type(s) for -: NoneType and float")
          (by rw [selectCases, if_pos h1]; rfl)] at h
        simp at h
      | some b =>
        have hsel : selectCases all_candidates (some b) feasible_outfit
            remaining_budget best_full_outfit best_full_cost
            = .ok (.inr (feasible_outfit, b - remaining_budget, remaining_budget,
              Message.fullOutfitFound)) := by
          rw [selectCases, if_pos h1]
          rfl
        by_cases hfe : feasible_outfit.isEmpty
        · have hfeas : feasible_outfit = [] := List.isEmpty_iff.1 hfe
          refine ⟨rfl, ?_, hfeas⟩
          have hl : all_candidates.length = 0 := by
            rw [← h1, hfeas]
            rfl
          exact List.length_eq_zero.1 hl
        · rw [select_final_of_inr hsel (Bool.not_eq_true _ ▸ hfe)] at h
          simp at h
    · by_cases h2 : 0 < feasible_outfit.length ∧
          feasible_outfit.length < all_candidates.length
      · cases budget with
        | none =>
          rw [select_final_of_error (e := "TypeError: unsupported format string passed to NoneType.__format__")
            (by rw [selectCases, if_neg h1, if_pos h2]; rfl)] at h
          simp at h
        | some b =>
          have hfe : feasible_outfit.isEmpty = false := by
            cases feasible_outfit with
            | nil => exact absurd h2.1 (by simp)
            | cons a l => rfl
          rw [select_final_of_inr (m := Message.partialOutfit feasible_outfit.length
              all_candidates.length b best_full_cost)
            (by rw [selectCases, if_neg h1, if_pos h2]; rfl) hfe] at h
          simp at h
      · by_cases h3 : best_full_outfit.isEmpty
        · rw [select_final_of_inl
            (by rw [selectCases, if_neg h1, if_neg h2, if_pos h3])] at h
          simp at h
        · cases budget with
          | none =>
            rw [select_final_of_error (e := "TypeError: unsupported format string passed to NoneType.__format__")
              (by rw [selectCases, if_neg h1, if_neg h2, if_neg h3]; rfl)] at h
            simp at h
          | some b =>
            rw [select_final_of_inr (m := Message.budgetConstraint b best_full_cost)
              (by rw [selectCases, if_neg h1, if_neg h2, if_neg h3]; rfl)
              (Bool.not_eq_true _ ▸ h3)] at h
            simp at h
  constructor
  · intro hne d h
    exact hne (main d h).2.1
  · constructor
    · intro h
      exact main _ h
    · rintro ⟨hb, hcats, hfeas⟩
      cases budget with
      | none => cases hb
      | some b =>
        subst hcats
        subst hfeas
        rfl

/-- C10 witness: the amended theorem's first part at a concrete
non-degenerate input. -/
theorem critical_guard_characterization_witness :
    select_final_outfit_and_metrics [[exItem]] (some 10) [exItem] 0 [exItem] 5
      ≠ .ok (.errorResult "Critical Assembly Error" "boom" 500) :=
  (critical_guard_characterization [[exItem]] (some 10) [exItem] 0 [exItem] 5).1
    (by decide) "boom"

/-! ## Generic machinery for the DP folds

The inner writes of the DP, projected to a single cost bucket, are a
fold that keeps the strictly largest value seen so far together with a
tag of the step that achieved it.  `maxStep` captures that shape; the
lemmas characterize the fold's result. -/

def maxStep {α β : Type} (f : α → Option ℚ) (g : α → β)
    (acc : ℚ × Option β) (p : α) : ℚ × Option β :=
  (f p).elim acc (fun v => if acc.1 < v then (v, some (g p)) else acc)

theorem maxStep_fst_le {α β : Type} (f : α → Option ℚ) (g : α → β)
    (acc : ℚ × Option β) (p : α) : acc.1 ≤ (maxStep f g acc p).1 := by
  rw [maxStep]
  cases hf : f p with
  | none => exact le_refl _
  | some v =>
    simp only [Option.elim]
    by_cases h : acc.1 < v
    · rw [if_pos h]
      exact le_of_lt h
    · rw [if_neg h]

theorem foldl_maxStep_fst_le {α β : Type} (f : α → Option ℚ) (g : α → β)
    (L : List α) : ∀ acc : ℚ × Option β, acc.1 ≤ (L.foldl (maxStep f g) acc).1 := by
  induction L with
  | nil => intro acc; exact le_refl _
  | cons p L ih =>
    intro acc
    exact le_trans (maxStep_fst_le f g acc p) (ih _)

theorem le_foldl_maxStep_of_mem {α β : Type} (f : α → Option ℚ) (g : α → β)
    (L : List α) : ∀ (acc : ℚ × Option β) (p : α) (v : ℚ),
      p ∈ L → f p = some v → v ≤ (L.foldl (maxStep f g) acc).1 := by
  induction L with
  | nil => intro acc p v hp; cases hp
  | cons q L ih =>
    intro acc p v hp hf
    rcases List.mem_cons.1 hp with h | h
    · subst h
      refine le_trans ?_ (foldl_maxStep_fst_le f g L (maxStep f g acc p))
      rw [maxStep, hf]
      simp only [Option.elim]
      by_cases hlt : acc.1 < v
      · rw [if_pos hlt]
      · rw [if_neg hlt]
        exact le_of_not_lt hlt
    · exact ih _ p v h hf

theorem foldl_maxStep_sound {α β : Type} (f : α → Option ℚ) (g : α → β)
    (L : List α) : ∀ acc : ℚ × Option β,
      L.foldl (maxStep f g) acc = acc
      ∨ ∃ p ∈ L, ∃ v, f p = some v ∧ L.foldl (maxStep f g) acc = (v, some (g p)) := by
  induction L with
  | nil => intro acc; exact Or.inl rfl
  | cons q L ih =>
    intro acc
    rcases ih (maxStep f g acc q) with h | ⟨p, hp, v, hv, hres⟩
    · rw [List.foldl_cons, h]
      rw [maxStep]
      cases hf : f q with
      | none => exact Or.inl rfl
      | some v =>
        simp only [Option.elim]
        by_cases hlt : acc.1 < v
        · rw [if_pos hlt]
          exact Or.inr ⟨q, List.mem_cons_self _ _, v, hf, rfl⟩
        · rw [if_neg hlt]
          exact Or.inl rfl
    · rw [List.foldl_cons, hres]
      exact Or.inr ⟨p, List.mem_cons_of_mem _ hp, v, hv, rfl⟩

/-- If some step `p0` achieves the value `V`, every step before it
stays strictly below `V`, every step after it stays at most `V`, and
the initial value is below `V`, then the fold ends exactly at
`(V, some (g p0))`: the last write is the first achiever of the
maximum (the source's strict `>` comparison keeps earlier ties). -/
theorem foldl_maxStep_lastWrite {α β : Type} (f : α → Option ℚ) (g : α → β)
    (L1 : List α) (p0 : α) (L2 : List α) (V : ℚ)
    (h0 : f p0 = some V)
    (hbefore : ∀ p ∈ L1, ∀ v, f p = some v → v < V)
    (hafter : ∀ p ∈ L2, ∀ v, f p = some v → v ≤ V) :
    ∀ acc : ℚ × Option β, acc.1 < V →
      (L1 ++ p0 :: L2).foldl (maxStep f g) acc = (V, some (g p0)) := by
  have hconst : ∀ (L : List α), (∀ p ∈ L, ∀ v, f p = some v → v ≤ V) →
      ∀ acc : ℚ × Option β, acc.1 = V →
        L.foldl (maxStep f g) acc = acc := by
    intro L
    induction L with
    | nil => intro _ acc _; rfl
    | cons q L ih =>
      intro hL acc haccV
      rw [List.foldl_cons]
      have hq : maxStep f g acc q = acc := by
        rw [maxStep]
        cases hf : f q with
        | none => rfl
        | some v =>
          simp only [Option.elim]
          rw [if_neg]
          rw [haccV]
          exact not_lt.2 (hL q (List.mem_cons_self _ _) v hf)
      rw [hq]
      exact ih (fun p hp => hL p (List.mem_cons_of_mem _ hp)) acc haccV
  induction L1 with
  | nil =>
    intro acc hacc
    rw [List.nil_append, List.foldl_cons]
    have hstep : maxStep f g acc p0 = (V, some (g p0)) := by
      rw [maxStep, h0]
      simp only [Option.elim]
      rw [if_pos hacc]
    rw [hstep]
    exact hconst L2 hafter _ rfl
  | cons q L1 ih =>
    intro acc hacc
    rw [List.cons_append, List.foldl_cons]
    refine ih (fun p hp => hbefore p (List.mem_cons_of_mem _ hp)) _ ?_
    rw [maxStep]
    cases hf : f q with
    | none => exact hacc
    | some v =>
      simp only [Option.elim]
      have hv : v < V := hbefore q (List.mem_cons_self _ _) v hf
      by_cases hlt : acc.1 < v
      · rw [if_pos hlt]
        exact hv
      · rw [if_neg hlt]
        exact hacc

/-! ## Lemmas about the final scan (`bestScan`) -/

theorem foldl_scanStep_fst_le (dp : ℕ → ℚ) (L : List ℕ) :
    ∀ acc : ℚ × ℤ, acc.1 ≤ (L.foldl (scanStep dp) acc).1 := by
  induction L with
  | nil => intro acc; exact le_refl _
  | cons c L ih =>
    intro acc
    refine le_trans ?_ (ih (scanStep dp acc c))
    rw [scanStep]
    by_cases h : acc.1 < dp c
    · rw [if_pos h]
      exact le_of_lt h
    · rw [if_neg h]

theorem le_foldl_scanStep_of_mem (dp : ℕ → ℚ) (L : List ℕ) :
    ∀ (acc : ℚ × ℤ) (c : ℕ), c ∈ L → dp c ≤ (L.foldl (scanStep dp) acc).1 := by
  induction L with
  | nil => intro acc c hc; cases hc
  | cons q L ih =>
    intro acc c hc
    rcases List.mem_cons.1 hc with h | h
    · subst h
      refine le_trans ?_ (foldl_scanStep_fst_le dp L (scanStep dp acc c))
      rw [scanStep]
      by_cases hlt : acc.1 < dp c
      · rw [if_pos hlt]
      · rw [if_neg hlt]
        exact le_of_not_lt hlt
    · exact ih _ c h

theorem foldl_scanStep_sound (dp : ℕ → ℚ) (L : List ℕ) :
    ∀ acc : ℚ × ℤ,
      L.foldl (scanStep dp) acc = acc
      ∨ ∃ c ∈ L, L.foldl (scanStep dp) acc = (dp c, (c : ℤ)) := by
  induction L with
  | nil => intro acc; exact Or.inl rfl
  | cons q L ih =>
    intro acc
    rcases ih (scanStep dp acc q) with h | ⟨c, hc, hres⟩
    · rw [List.foldl_cons, h, scanStep]
      by_cases hlt : acc.1 < dp q
      · rw [if_pos hlt]
        exact Or.inr ⟨q, List.mem_cons_self _ _, rfl⟩
      · rw [if_neg hlt]
        exact Or.inl rfl
    · rw [List.foldl_cons, hres]
      exact Or.inr ⟨c, List.mem_cons_of_mem _ hc, rfl⟩

theorem foldl_scanStep_lastWrite (dp : ℕ → ℚ) (L1 : List ℕ) (cstar : ℕ)
    (L2 : List ℕ)
    (hbefore : ∀ c ∈ L1, dp c < dp cstar)
    (hafter : ∀ c ∈ L2, dp c ≤ dp cstar) :
    ∀ acc : ℚ × ℤ, acc.1 < dp cstar →
      (L1 ++ cstar :: L2).foldl (scanStep dp) acc = (dp cstar, (cstar : ℤ)) := by
  have hconst : ∀ (L : List ℕ), (∀ c ∈ L, dp c ≤ dp cstar) →
      ∀ acc : ℚ × ℤ, acc.1 = dp cstar → L.foldl (scanStep dp) acc = acc := by
    intro L
    induction L with
    | nil => intro _ acc _; rfl
    | cons q L ih =>
      intro hL acc haccV
      rw [List.foldl_cons]
      have hq : scanStep dp acc q = acc := by
        rw [scanStep, if_neg]
        rw [haccV]
        exact not_lt.2 (hL q (List.mem_cons_self _ _))
      rw [hq]
      exact ih (fun c hc => hL c (List.mem_cons_of_mem _ hc)) acc haccV
  induction L1 with
  | nil =>
    intro acc hacc
    rw [List.nil_append, List.foldl_cons]
    have hstep : scanStep dp acc cstar = (dp cstar, (cstar : ℤ)) := by
      rw [scanStep, if_pos hacc]
    rw [hstep]
    exact hconst L2 hafter _ rfl
  | cons q L1 ih =>
    intro acc hacc
    rw [List.cons_append, List.foldl_cons]
    refine ih (fun c hc => hbefore c (List.mem_cons_of_mem _ hc)) _ ?_
    rw [scanStep]
    have hv : dp q < dp cstar := hbefore q (List.mem_cons_self _ _)
    by_cases hlt : acc.1 < dp q
    · rw [if_pos hlt]
      exact hv
    · rw [if_neg hlt]
      exact hacc

theorem foldl_scanStep_snd_le (dp : ℕ → ℚ) (W : ℕ) (L : List ℕ) :
    ∀ acc : ℚ × ℤ, acc.2 ≤ (W : ℤ) → (∀ c ∈ L, c ≤ W) →
      (L.foldl (scanStep dp) acc).2 ≤ (W : ℤ) := by
  induction L with
  | nil => intro acc h _; exact h
  | cons q L ih =>
    intro acc h hL
    rw [List.foldl_cons]
    refine ih _ ?_ (fun c hc => hL c (List.mem_cons_of_mem _ hc))
    rw [scanStep]
    by_cases hlt : acc.1 < dp q
    · rw [if_pos hlt]
      show (q : ℤ) ≤ (W : ℤ)
      have := hL q (List.mem_cons_self _ _)
      exact_mod_cast this
    · rw [if_neg hlt]
      exact h

/-- The reversed range decomposes around any `cstar ≤ W` into a block
of larger costs, `cstar` itself, and a block of smaller costs. -/
theorem reverse_range_decomp (W cstar : ℕ) (h : cstar ≤ W) :
    ∃ L1 L2 : List ℕ,
      (List.range (W + 1)).reverse = L1 ++ cstar :: L2
      ∧ (∀ c ∈ L1, cstar < c) ∧ (∀ c ∈ L2, c < cstar) := by
  have hsum : W + 1 = cstar + (1 + (W - cstar)) := by omega
  have hr : List.range (W + 1)
      = List.range cstar ++ (List.range (1 + (W - cstar))).map (cstar + ·) := by
    rw [hsum, List.range_add]
  have hr2 : List.range (1 + (W - cstar))
      = 0 :: (List.range (W - cstar)).map Nat.succ := by
    rw [Nat.add_comm 1 (W - cstar)]
    exact List.range_succ_eq_map _
  refine ⟨((List.range (W - cstar)).map (fun x => cstar + Nat.succ x)).reverse,
    (List.range cstar).reverse, ?_, ?_, ?_⟩
  · rw [hr, hr2, List.reverse_append, List.map_cons, List.reverse_cons, List.map_map]
    simp [Function.comp]
  · intro c hc
    rw [List.mem_reverse] at hc
    obtain ⟨x, _, hx⟩ := List.mem_map.1 hc
    omega
  · intro c hc
    rw [List.mem_reverse] at hc
    exact List.mem_range.1 hc

/-- `bestScan` returns the maximal stored value over `0..W` and, among
buckets attaining it, the largest cost: the scan walks the costs
downwards and only a strictly larger value replaces the running best. -/
theorem bestScan_eq_of_max (dp : ℕ → ℚ) (W cstar : ℕ)
    (hle : cstar ≤ W) (hpos : -1 < dp cstar)
    (hmax : ∀ c ≤ W, dp c ≤ dp cstar)
    (habove : ∀ c, cstar < c → c ≤ W → dp c < dp cstar) :
    bestScan dp W = (dp cstar, (cstar : ℤ)) := by
  obtain ⟨L1, L2, hdecomp, hL1, hL2⟩ := reverse_range_decomp W cstar hle
  rw [bestScan, hdecomp]
  refine foldl_scanStep_lastWrite dp L1 cstar L2 ?_ ?_ _ hpos
  · intro c hc
    have hcW : c ≤ W := by
      have : c ∈ (List.range (W + 1)).reverse := by
        rw [hdecomp]
        exact List.mem_append_left _ hc
      rw [List.mem_reverse, List.mem_range] at this
      omega
    exact habove c (hL1 c hc) hcW
  · intro c hc
    have hcW : c ≤ W := by
      have : c ∈ (List.range (W + 1)).reverse := by
        rw [hdecomp]
        exact List.mem_append_right _ (List.mem_cons_of_mem _ hc)
      rw [List.mem_reverse, List.mem_range] at this
      omega
    exact hmax c hcW

theorem bestScan_fst_ge (dp : ℕ → ℚ) (W : ℕ) :
    ∀ c ≤ W, dp c ≤ (bestScan dp W).1 := by
  intro c hc
  refine le_foldl_scanStep_of_mem dp _ _ c ?_
  rw [List.mem_reverse, List.mem_range]
  omega

theorem bestScan_sound (dp : ℕ → ℚ) (W : ℕ) :
    bestScan dp W = (-1, -1) ∨ ∃ c ≤ W, bestScan dp W = (dp c, (c : ℤ)) := by
  rcases foldl_scanStep_sound dp ((List.range (W + 1)).reverse) (-1, -1) with h | ⟨c, hc, h⟩
  · exact Or.inl h
  · rw [List.mem_reverse, List.mem_range] at hc
    exact Or.inr ⟨c, by omega, h⟩

theorem bestScan_snd_le (dp : ℕ → ℚ) (W : ℕ) : (bestScan dp W).2 ≤ (W : ℤ) := by
  refine foldl_scanStep_snd_le dp W _ _ ?_ ?_
  · omega
  · intro c hc
    rw [List.mem_reverse, List.mem_range] at hc
    omega

/-! ## Projecting one DP stage onto a single cost bucket

`runStage` iterates costs (outer) and items (inner).  Flattening the
two loops into one list of `(cost, index, item)` steps and projecting
the state onto one bucket `w` turns the stage into a `maxStep` fold,
which the generic lemmas above characterize. -/

/-- The flattened iteration space of one stage, in iteration order:
costs ascending, items in list order within each cost. -/
def stagePairs (items : List PItem) (W : ℕ) : List (ℕ × ℕ × PItem) :=
  (List.range (W + 1)).flatMap (fun c => (items.enum).map (fun q => (c, q)))

/-- One flattened step: the reachability gate (`current_dp[cost] >= 0`)
is cost-only, so it commutes into each item step. -/
def flatStep (curDp : ℕ → ℚ) (W : ℕ) (st : (ℕ → ℚ) × (ℕ → Option ℕ))
    (p : ℕ × ℕ × PItem) : (ℕ → ℚ) × (ℕ → Option ℕ) :=
  if 0 ≤ curDp p.1 then itemStep curDp W p.1 st p.2 else st

/-- The candidate value a flattened step offers to bucket `w`: defined
when the source cost is reachable and the step lands exactly on `w`
within the budget. -/
def candVal (curDp : ℕ → ℚ) (W w : ℕ) (p : ℕ × ℕ × PItem) : Option ℚ :=
  if 0 ≤ curDp p.1 ∧ p.1 + p.2.2.price_in_cents = w ∧ p.1 + p.2.2.price_in_cents ≤ W
  then some (curDp p.1 + p.2.2.similarity) else none

theorem foldl_id {α β : Type} (l : List α) (st : β) :
    l.foldl (fun s (_ : α) => s) st = st := by
  induction l generalizing st with
  | nil => rfl
  | cons a l ih => exact ih st

theorem foldl_costStep_flatten (curDp : ℕ → ℚ) (items : List PItem) (W : ℕ)
    (l : List ℕ) : ∀ st,
    l.foldl (costStep curDp items W) st
      = (l.flatMap (fun c => (items.enum).map (fun q => (c, q)))).foldl
          (flatStep curDp W) st := by
  induction l with
  | nil => intro st; rfl
  | cons c l ih =>
    intro st
    rw [List.foldl_cons, List.flatMap_cons, List.foldl_append, ih]
    congr 1
    rw [List.foldl_map, costStep]
    by_cases hg : 0 ≤ curDp c
    · rw [if_pos hg]
      have : (fun (s : (ℕ → ℚ) × (ℕ → Option ℕ)) (q : ℕ × PItem) =>
          flatStep curDp W s (c, q)) = itemStep curDp W c := by
        funext s q
        rw [flatStep, if_pos hg]
      rw [this]
    · rw [if_neg hg]
      have : (fun (s : (ℕ → ℚ) × (ℕ → Option ℕ)) (q : ℕ × PItem) =>
          flatStep curDp W s (c, q))
          = (fun s (_ : ℕ × PItem) => s) := by
        funext s q
        rw [flatStep, if_neg hg]
      rw [this, foldl_id]

theorem flatStep_proj (curDp : ℕ → ℚ) (W w : ℕ)
    (st : (ℕ → ℚ) × (ℕ → Option ℕ)) (p : ℕ × ℕ × PItem) :
    ((flatStep curDp W st p).1 w, (flatStep curDp W st p).2 w)
      = maxStep (candVal curDp W w) (fun p => p.2.1) (st.1 w, st.2 w) p := by
  obtain ⟨c, idx, it⟩ := p
  rw [flatStep, maxStep, candVal]
  by_cases hg : 0 ≤ curDp c
  · rw [if_pos hg]
    rw [itemStep]
    simp only
    by_cases hcond : c + it.price_in_cents ≤ W ∧
        st.1 (c + it.price_in_cents) < curDp c + it.similarity
    · rw [if_pos hcond]
      by_cases hw : c + it.price_in_cents = w
      · subst hw
        rw [if_pos ⟨hg, rfl, hcond.1⟩]
        simp only [Option.elim]
        rw [if_pos hcond.2]
        simp [Function.update]
      · rw [if_neg (by tauto)]
        simp only [Option.elim]
        rw [Function.update_noteq (by omega), Function.update_noteq (by omega)]
    · rw [if_neg hcond]
      by_cases hv : 0 ≤ curDp c ∧ c + it.price_in_cents = w ∧
          c + it.price_in_cents ≤ W
      · rw [if_pos hv]
        simp only [Option.elim]
        rw [if_neg]
        rw [← hv.2.1]
        intro hlt
        exact hcond ⟨hv.2.2, hlt⟩
      · rw [if_neg hv]
        rfl
  · rw [if_neg hg, if_neg (by tauto)]
    rfl

theorem foldl_flatStep_proj (curDp : ℕ → ℚ) (W w : ℕ)
    (L : List (ℕ × ℕ × PItem)) : ∀ st : (ℕ → ℚ) × (ℕ → Option ℕ),
    (((L.foldl (flatStep curDp W) st)).1 w, ((L.foldl (flatStep curDp W) st)).2 w)
      = L.foldl (maxStep (candVal curDp W w) (fun p => p.2.1)) (st.1 w, st.2 w) := by
  induction L with
  | nil => intro st; rfl
  | cons p L ih =>
    intro st
    rw [List.foldl_cons, List.foldl_cons, ih, flatStep_proj]

/-- The stage, observed at one bucket, is the `maxStep` fold over the
flattened iteration space. -/
theorem runStage_apply (curDp : ℕ → ℚ) (items : List PItem) (W w : ℕ) :
    ((runStage curDp items W).1 w, (runStage curDp items W).2 w)
      = (stagePairs items W).foldl
          (maxStep (candVal curDp W w) (fun p => p.2.1)) (curDp w, none) := by
  rw [runStage, foldl_costStep_flatten, stagePairs]
  exact foldl_flatStep_proj curDp W w _ _

theorem mem_stagePairs {items : List PItem} {W : ℕ} {c idx : ℕ} {it : PItem}
    (hc : c ≤ W) (hit : items.get? idx = some it) :
    (c, idx, it) ∈ stagePairs items W := by
  rw [stagePairs]
  refine List.mem_flatMap.2 ⟨c, List.mem_range.2 (by omega), ?_⟩
  exact List.mem_map.2 ⟨(idx, it), List.mem_enum_iff_get?.2 hit, rfl⟩

theorem stagePairs_decode {items : List PItem} {W : ℕ} {p : ℕ × ℕ × PItem}
    (hp : p ∈ stagePairs items W) :
    p.1 ≤ W ∧ items.get? p.2.1 = some p.2.2 := by
  rw [stagePairs] at hp
  obtain ⟨c, hc, hmem⟩ := List.mem_flatMap.1 hp
  obtain ⟨q, hq, hqe⟩ := List.mem_map.1 hmem
  subst hqe
  refine ⟨by simpa using Nat.lt_succ_iff.1 (List.mem_range.1 hc), ?_⟩
  exact List.mem_enum_iff_get?.1 hq

/-! Stage-level consequences -/

theorem runStage_fst_mono (curDp : ℕ → ℚ) (items : List PItem) (W w : ℕ) :
    curDp w ≤ (runStage curDp items W).1 w := by
  have h := congrArg Prod.fst (runStage_apply curDp items W w)
  simp only at h
  rw [h]
  exact foldl_maxStep_fst_le _ _ _ _

theorem runStage_complete (curDp : ℕ → ℚ) (items : List PItem) (W : ℕ)
    {c idx : ℕ} {it : PItem}
    (hit : items.get? idx = some it) (hg : 0 ≤ curDp c)
    (hW : c + it.price_in_cents ≤ W) :
    curDp c + it.similarity ≤ (runStage curDp items W).1 (c + it.price_in_cents) := by
  have h := congrArg Prod.fst (runStage_apply curDp items W (c + it.price_in_cents))
  simp only at h
  rw [h]
  refine le_foldl_maxStep_of_mem _ _ _ _ (c, idx, it) _
    (mem_stagePairs (by omega) hit) ?_
  rw [candVal, if_pos ⟨hg, rfl, hW⟩]

theorem runStage_sound (curDp : ℕ → ℚ) (items : List PItem) (W w : ℕ) :
    ((runStage curDp items W).1 w = curDp w ∧ (runStage curDp items W).2 w = none)
    ∨ ∃ c idx it, items.get? idx = some it ∧ 0 ≤ curDp c
        ∧ c + it.price_in_cents = w ∧ w ≤ W
        ∧ (runStage curDp items W).1 w = curDp c + it.similarity
        ∧ (runStage curDp items W).2 w = some idx := by
  have h := runStage_apply curDp items W w
  rcases foldl_maxStep_sound (candVal curDp W w) (fun p => p.2.1)
      (stagePairs items W) (curDp w, none) with hs | ⟨p, hp, v, hv, hs⟩
  · rw [hs] at h
    exact Or.inl ⟨congrArg Prod.fst h, congrArg Prod.snd h⟩
  · rw [hs] at h
    obtain ⟨c, idx, it⟩ := p
    rw [candVal] at hv
    by_cases hcond : 0 ≤ curDp c ∧ c + it.price_in_cents = w ∧
        c + it.price_in_cents ≤ W
    · rw [if_pos hcond] at hv
      refine Or.inr ⟨c, idx, it, (stagePairs_decode hp).2, hcond.1,
        hcond.2.1, ?_, ?_, ?_⟩
      · omega
      · have h1 := congrArg Prod.fst h
        simp only at h1
        rw [h1]
        exact (Option.some_inj.1 hv).symm
      · have h2 := congrArg Prod.snd h
        simp only at h2
        exact h2
    · rw [if_neg hcond] at hv
      cases hv

/-! ## Whole-DP lemmas -/

theorem runDP_fst_mono (W : ℕ) (cats : List (List PItem)) :
    ∀ (dp : ℕ → ℚ) (w : ℕ), dp w ≤ (runDP W cats dp).1 w := by
  induction cats with
  | nil => intro dp w; exact le_refl _
  | cons items rest ih =>
    intro dp w
    rw [runDP]
    exact le_trans (runStage_fst_mono dp items W w) (ih _ w)

/-! ## Claim C5 -/

/-- C5 counterexample: one category with two items of equal similarity
`1`, priced 1 and 2 cents, budget 3 cents.  Cost buckets 1 and 2 both
store the maximal quality `1`, yet the DP returns cost bucket 2 — the
higher cost, not the claimed lower one (the scan walks costs downward
and the strict comparison keeps the first, i.e. most expensive,
maximum). -/
theorem dp_scan_tie_picks_higher_cost :
    (runDP 3 [[⟨1, 1, exItem⟩, ⟨2, 1, exItem⟩]] dp0).1 1 = 1
    ∧ (runDP 3 [[⟨1, 1, exItem⟩, ⟨2, 1, exItem⟩]] dp0).1 2 = 1
    ∧ (run_knapsack_dp [[⟨1, 1, exItem⟩, ⟨2, 1, exItem⟩]] 3 1).2.2 = 2 := by
  refine ⟨?_, ?_, ?_⟩ <;>
    norm_num [run_knapsack_dp, runDP, runStage, costStep, itemStep, dp0,
      List.range_succ, Function.update, List.enum, List.enumFrom,
      bestScan, scanStep]

/-- C5 (amended): for every candidate matrix and finite budget, the
returned result corresponds to the cost bucket holding the maximum
stored quality over all buckets up to the budget — but when two cost
buckets hold equal maximum quality, the bucket with the HIGHER cost is
chosen (the scan iterates from the budget downwards and only a
strictly larger quality replaces the running best). -/
theorem dp_returns_max_quality_highest_cost_bucket
    (cats : List (List PItem)) (W n : ℕ) :
    ∃ cstar : ℕ,
      (run_knapsack_dp cats W n).2.2 = (cstar : ℤ)
      ∧ (run_knapsack_dp cats W n).2.1 = (runDP W cats dp0).1 cstar
      ∧ cstar ≤ W
      ∧ (∀ c, c ≤ W → (runDP W cats dp0).1 c ≤ (runDP W cats dp0).1 cstar)
      ∧ (∀ c, c ≤ W → (runDP W cats dp0).1 c = (runDP W cats dp0).1 cstar
          → c ≤ cstar) := by
  set dpF := (runDP W cats dp0).1 with hdpF
  have h0 : (0 : ℚ) ≤ dpF 0 := by
    have := runDP_fst_mono W cats dp0 0
    rw [← hdpF] at this
    simpa [dp0] using this
  obtain ⟨b, hb, hbmax⟩ := Finset.exists_max_image (Finset.range (W + 1)) dpF
    ⟨0, Finset.mem_range.2 (by omega)⟩
  classical
  set A : Finset ℕ := (Finset.range (W + 1)).filter (fun c => dpF c = dpF b) with hA
  have hAne : A.Nonempty := ⟨b, by
    rw [hA]
    exact Finset.mem_filter.2 ⟨hb, rfl⟩⟩
  set cstar := A.max' hAne with hcstar
  have hcmem : cstar ∈ A := Finset.max'_mem A hAne
  have hceq : dpF cstar = dpF b := (Finset.mem_filter.1 hcmem).2
  have hcle : cstar ≤ W := by
    have h := Finset.mem_range.1 (Finset.mem_filter.1 hcmem).1
    omega
  have hmax : ∀ c, c ≤ W → dpF c ≤ dpF cstar := by
    intro c hc
    rw [hceq]
    exact hbmax c (Finset.mem_range.2 (by omega))
  have htie : ∀ c, c ≤ W → dpF c = dpF cstar → c ≤ cstar := by
    intro c hc hceq2
    refine Finset.le_max' A c ?_
    rw [hA]
    refine Finset.mem_filter.2 ⟨Finset.mem_range.2 (by omega), ?_⟩
    rw [hceq2, hceq]
  have hscan : bestScan dpF W = (dpF cstar, (cstar : ℤ)) := by
    refine bestScan_eq_of_max dpF W cstar hcle ?_ hmax ?_
    · have h1 : (0 : ℚ) ≤ dpF cstar := le_trans h0 (hmax 0 (by omega))
      linarith
    · intro c hgt hcW
      refine lt_of_le_of_ne (hmax c hcW) ?_
      intro heq
      have := htie c hcW heq
      omega
  refine ⟨cstar, ?_, ?_, hcle, hmax, htie⟩
  · simp only [run_knapsack_dp]
    rw [← hdpF, hscan]
  · simp only [run_knapsack_dp]
    rw [← hdpF, hscan]

/-- C5 witness: the amended characterization applied at a concrete
one-category matrix, yielding the returned cost bound. -/
theorem dp_returns_max_quality_highest_cost_bucket_witness :
    (run_knapsack_dp [[⟨1, 1, exItem⟩]] 3 1).2.2 ≤ (3 : ℤ) := by
  obtain ⟨c, h1, _, h3, _, _⟩ :=
    dp_returns_max_quality_highest_cost_bucket [[⟨1, 1, exItem⟩]] 3 1
  rw [h1]
  exact_mod_cast h3

/-! ## Traceback accounting (towards C7) -/

theorem round_mono' {x y : ℚ} (h : x ≤ y) : round x ≤ round y := by
  rw [round_eq, round_eq]
  exact Int.floor_mono (by linarith)

theorem round_nonneg' {x : ℚ} (h : 0 ≤ x) : 0 ≤ round x := by
  have h1 : round (0 : ℚ) ≤ round x := round_mono' h
  rw [round_zero] at h1
  exact h1

/-- For a non-negative whole-cent price the conversion to integer
cents is exact. -/
theorem toCents_exact {p : ℚ} (h0 : 0 ≤ p) (hc : CentPrec p) :
    (((toCents p).toNat : ℕ) : ℚ) = 100 * p := by
  obtain ⟨k, hk⟩ := hc
  have hk0 : (0 : ℤ) ≤ k := by
    have : (0 : ℚ) ≤ (k : ℚ) := by
      rw [← hk]
      linarith
    exact_mod_cast this
  rw [toCents, hk, round_intCast]
  have h2 := Int.toNat_of_nonneg hk0
  exact_mod_cast congrArg (fun z : ℤ => (z : ℚ)) h2

/-- Every recorded index of a path row points into the candidate list
at an item whose price does not exceed the bucket cost. -/
def RowOK (items : List PItem) (row : ℕ → Option ℕ) : Prop :=
  ∀ w idx, row w = some idx →
    ∃ it, items.get? idx = some it ∧ it.price_in_cents ≤ w

/-- The pre-processed cents agree with the stored original price. -/
def TraceInv (items : List PItem) : Prop :=
  ∀ it ∈ items, ((it.price_in_cents : ℕ) : ℚ) = 100 * it.data.price

theorem runStage_row_ok (curDp : ℕ → ℚ) (items : List PItem) (W : ℕ) :
    RowOK items (runStage curDp items W).2 := by
  intro w idx h
  rcases runStage_sound curDp items W w with ⟨_, hnone⟩ |
    ⟨c, idx', it, hget, _, hcw, _, _, hrow⟩
  · rw [hnone] at h
    cases h
  · rw [hrow] at h
    have hidx : idx' = idx := Option.some_inj.1 h
    subst hidx
    exact ⟨it, hget, by omega⟩

theorem runDP_rows_ok (W : ℕ) (cats : List (List PItem)) :
    ∀ dp : ℕ → ℚ, ∀ pr ∈ cats.zip (runDP W cats dp).2, RowOK pr.1 pr.2 := by
  induction cats with
  | nil => intro dp pr hpr; cases hpr
  | cons items rest ih =>
    intro dp pr hpr
    rw [runDP] at hpr
    rcases List.mem_cons.1 hpr with h | h
    · subst h
      exact runStage_row_ok dp items W
    · exact ih _ pr h

/-- The traceback preserves the measure `sum of 100·price of collected
items + remaining cost`: collected items subtract exactly their cents,
skipped placeholders change nothing. -/
theorem traceback_mu : ∀ L : List (List PItem × (ℕ → Option ℕ)),
    (∀ pr ∈ L, RowOK pr.1 pr.2 ∧ TraceInv pr.1) →
    ∀ acc : List Item × ℕ,
      (((L.foldl traceStep acc).1.map (fun d => 100 * d.price)).sum
        + (((L.foldl traceStep acc).2 : ℕ) : ℚ))
      = ((acc.1.map (fun d => 100 * d.price)).sum + ((acc.2 : ℕ) : ℚ)) := by
  intro L
  induction L with
  | nil => intro _ acc; rfl
  | cons pr L ih =>
    intro h acc
    rw [List.foldl_cons]
    rw [ih (fun q hq => h q (List.mem_cons_of_mem _ hq)) _]
    obtain ⟨hrow, hinv⟩ := h pr (List.mem_cons_self _ _)
    rw [traceStep]
    cases hidx : pr.2 acc.2 with
    | none => rfl
    | some idx =>
      simp only [Option.elim]
      obtain ⟨it, hget, hple⟩ := hrow acc.2 idx hidx
      rw [hget]
      simp only [Option.elim]
      by_cases hskip : it.price_in_cents ≠ 0 ∨ it.similarity ≠ 0
      · rw [if_pos hskip]
        simp only [List.map_cons, List.sum_cons]
        have hcast : (((acc.2 - it.price_in_cents : ℕ) : ℕ) : ℚ)
            = ((acc.2 : ℕ) : ℚ) - ((it.price_in_cents : ℕ) : ℚ) :=
          Nat.cast_sub hple
        rw [hcast, hinv it (List.get?_mem hget)]
        ring
      · rw [if_neg hskip]

theorem traceback_cost_le (prs : List (List PItem × (ℕ → Option ℕ)))
    (start : ℕ)
    (h : ∀ pr ∈ prs, RowOK pr.1 pr.2 ∧ TraceInv pr.1) :
    ((traceback prs start).map (fun d => 100 * d.price)).sum ≤ ((start : ℕ) : ℚ) := by
  have hmu := traceback_mu prs.reverse
    (fun pr hpr => h pr (List.mem_reverse.1 hpr)) ([], start)
  rw [traceback]
  have hend : (0 : ℚ) ≤ (((prs.reverse.foldl traceStep ([], start)).2 : ℕ) : ℚ) := by
    positivity
  simp only [List.map_nil, List.sum_nil, zero_add] at hmu
  linarith

theorem format_results_price (l : List Item) :
    (format_results l).map Item.price = l.map Item.price := by
  rw [format_results, List.map_map]
  rfl

/-! ## Claim C7 -/

/-- C7: for every candidate matrix of non-negative whole-cent prices
and every non-negative whole-cent budget, the total price of the
feasible-outfit optimizer's selection is at most the budget. -/
theorem feasible_outfit_cost_within_budget (all_candidates : List (List Item))
    (b : ℚ) (hb0 : 0 ≤ b) (hbc : CentPrec b)
    (hpr : ∀ cat ∈ all_candidates, ∀ it ∈ cat, 0 ≤ it.price ∧ CentPrec it.price) :
    ∀ r, get_outfit all_candidates (some b) = .ok r →
      (r.feasible_outfit.map Item.price).sum ≤ b := by
  intro r hr
  have hWb : (((round (100 * b)).toNat : ℕ) : ℚ) = 100 * b :=
    toCents_exact (by linarith) hbc
  simp only [get_outfit] at hr
  by_cases hemp : all_candidates.any (·.isEmpty)
  · rw [if_pos hemp] at hr
    cases hr
  · rw [if_neg hemp, if_neg (by
      have := round_nonneg' (show (0 : ℚ) ≤ 100 * b by linarith)
      omega)] at hr
    have hrr := Option.some_inj.1 (congrArg Except.toOption hr)
    subst hrr
    simp only
    rw [format_results_price]
    simp only [run_knapsack_dp]
    set FL := feasibleLists (all_candidates.map (fun cat => cat.map processItem))
      with hFL
    set W := (round (100 * b)).toNat with hW
    set best := bestScan (runDP W FL dp0).1 W with hbest
    by_cases hcond : 0 ≤ best.2 ∧ 0 < best.1
    · rw [if_pos hcond]
      have hok : ∀ pr ∈ FL.zip (runDP W FL dp0).2, RowOK pr.1 pr.2 ∧ TraceInv pr.1 := by
        intro pr hzip
        obtain ⟨prItems, prRow⟩ := pr
        refine ⟨runDP_rows_ok W FL dp0 _ hzip, ?_⟩
        have hmem : prItems ∈ FL := (List.of_mem_zip hzip).1
        rw [hFL, feasibleLists] at hmem
        obtain ⟨l, hl, hleq⟩ := List.mem_map.1 hmem
        obtain ⟨cat, hcat, hcateq⟩ := List.mem_map.1 hl
        intro it hit
        rw [← hleq] at hit
        rcases List.mem_cons.1 hit with h | h
        · subst h
          norm_num [skip_item]
        · rw [← hcateq] at h
          obtain ⟨x, hx, hxeq⟩ := List.mem_map.1 h
          subst hxeq
          obtain ⟨hx0, hxc⟩ := hpr cat hcat x hx
          exact toCents_exact hx0 hxc
      have hsum := traceback_cost_le (FL.zip (runDP W FL dp0).2) best.2.toNat hok
      have hWle : ((best.2.toNat : ℕ) : ℚ) ≤ ((W : ℕ) : ℚ) := by
        have h1 : best.2 ≤ (W : ℤ) := by
          rw [hbest]
          exact bestScan_snd_le _ _
        have h2 : best.2.toNat ≤ W := by omega
        exact_mod_cast h2
      have hfinal : ((traceback (FL.zip (runDP W FL dp0).2) best.2.toNat).map
          (fun d => 100 * d.price)).sum ≤ 100 * b := by
        rw [← hWb]
        exact le_trans hsum hWle
      rw [List.sum_map_mul_left] at hfinal
      linarith
    · rw [if_neg hcond]
      simp only [List.map_nil, List.sum_nil]
      linarith

/-! ## Budget monotonicity (towards C8)

The value table at buckets up to the smaller budget is independent of
the budget bound: every write into such a bucket comes from a smaller
bucket and stays within both bounds. -/

theorem runStage_agree (curDp1 curDp2 : ℕ → ℚ) (items : List PItem)
    (W1 W2 : ℕ) (hW : W1 ≤ W2)
    (h : ∀ w, w ≤ W1 → curDp1 w = curDp2 w) :
    ∀ w, w ≤ W1 → (runStage curDp1 items W1).1 w = (runStage curDp2 items W2).1 w := by
  intro w hw
  refine le_antisymm ?_ ?_
  · rcases runStage_sound curDp1 items W1 w with ⟨hbase, _⟩ |
      ⟨c, idx, it, hget, hg, hcw, hwW, hval, _⟩
    · rw [hbase, h w hw]
      exact runStage_fst_mono curDp2 items W2 w
    · rw [hval]
      have hcle : c ≤ W1 := by omega
      rw [h c hcle]
      have := runStage_complete curDp2 items W2 hget
        (by rw [← h c hcle]; exact hg) (by omega)
      rw [hcw] at this
      exact this
  · rcases runStage_sound curDp2 items W2 w with ⟨hbase, _⟩ |
      ⟨c, idx, it, hget, hg, hcw, hwW, hval, _⟩
    · rw [hbase, ← h w hw]
      exact runStage_fst_mono curDp1 items W1 w
    · rw [hval]
      have hcle : c ≤ W1 := by omega
      rw [← h c hcle]
      have := runStage_complete curDp1 items W1 hget
        (by rw [h c hcle]; exact hg) (by omega)
      rw [hcw] at this
      exact this

theorem runDP_agree (cats : List (List PItem)) (W1 W2 : ℕ) (hW : W1 ≤ W2) :
    ∀ (dp1 dp2 : ℕ → ℚ), (∀ w, w ≤ W1 → dp1 w = dp2 w) →
    ∀ w, w ≤ W1 → (runDP W1 cats dp1).1 w = (runDP W2 cats dp2).1 w := by
  induction cats with
  | nil => intro dp1 dp2 h w hw; exact h w hw
  | cons items rest ih =>
    intro dp1 dp2 h w hw
    rw [runDP, runDP]
    exact ih _ _ (runStage_agree dp1 dp2 items W1 W2 hW h) w hw

/-! ## Claim C8 -/

/-- C8: for a fixed candidate matrix, the best total similarity found
by the feasible DP (the quality of the feasible selection) is
monotonically non-decreasing in the budget. -/
theorem feasible_quality_monotone_in_budget (all_candidates : List (List Item))
    (b1 b2 : ℚ) (h : b1 ≤ b2) :
    (run_knapsack_dp
        (feasibleLists (all_candidates.map (fun cat => cat.map processItem)))
        (round (100 * b1)).toNat all_candidates.length).2.1
    ≤ (run_knapsack_dp
        (feasibleLists (all_candidates.map (fun cat => cat.map processItem)))
        (round (100 * b2)).toNat all_candidates.length).2.1 := by
  set FL := feasibleLists (all_candidates.map (fun cat => cat.map processItem))
    with hFL
  set W1 := (round (100 * b1)).toNat with hW1
  set W2 := (round (100 * b2)).toNat with hW2
  have hWle : W1 ≤ W2 := by
    have := round_mono' (show 100 * b1 ≤ 100 * b2 by linarith)
    omega
  simp only [run_knapsack_dp]
  have hagree := runDP_agree FL W1 W2 hWle dp0 dp0 (fun _ _ => rfl)
  have h2zero : (0 : ℚ) ≤ (runDP W2 FL dp0).1 0 := by
    have := runDP_fst_mono W2 FL dp0 0
    simpa [dp0] using this
  rcases bestScan_sound (runDP W1 FL dp0).1 W1 with hs | ⟨c, hc, hs⟩
  · rw [hs]
    have := bestScan_fst_ge (runDP W2 FL dp0).1 W2 0 (by omega)
    simp only
    linarith
  · rw [hs]
    simp only
    rw [hagree c hc]
    exact bestScan_fst_ge (runDP W2 FL dp0).1 W2 c (by omega)

/-- C8 witness: the theorem at a concrete matrix and budgets 1 ≤ 2. -/
theorem feasible_quality_monotone_in_budget_witness :
    (run_knapsack_dp (feasibleLists ([[exItem]].map (fun cat => cat.map processItem)))
        (round ((100 : ℚ) * 1)).toNat 1).2.1
    ≤ (run_knapsack_dp (feasibleLists ([[exItem]].map (fun cat => cat.map processItem)))
        (round ((100 : ℚ) * 2)).toNat 1).2.1 := by
  have h := feasible_quality_monotone_in_budget [[exItem]] 1 2 (by norm_num)
  simpa using h

/-! ## The full-outfit pick (towards C3)

The DP, run without skip placeholders and with the oversized budget,
selects per category the candidate of maximum similarity, breaking
ties towards the *higher* price (the scan keeps the most expensive
bucket) and then towards the first enumerated candidate.  `fullPick`
is that per-category rule, written as the spec's words describe it
(amended tie-break); `fullPickLowTie` is the claim's original wording
with the lowest-price tie-break, used only to refute it. -/

/-- `beats y z`: candidate `y` is strictly preferred to `z` — higher
similarity, or equal similarity and higher price. -/
def beats (y z : Item) : Prop :=
  z.similarity < y.similarity
  ∨ (z.similarity = y.similarity ∧ z.price < y.price)

/-- The preference key: similarity first, then price,
lexicographically. -/
def key (it : Item) : ℚ ×ₗ ℚ := toLex (it.similarity, it.price)

theorem beats_iff_key_lt (y z : Item) : beats y z ↔ key z < key y := by
  rw [key, key, Prod.Lex.lt_iff]
  rfl

instance (y z : Item) : Decidable (beats y z) := by
  rw [beats]
  infer_instance

/-- The candidate of maximum quality with ties broken by higher price
and then by first enumeration order; the dummy value for an empty
category never arises (empty categories are fatal). -/
def fullPick : List Item → Item
  | [] => { id := 0, title := "", url := "", image_link := "", price := 0, similarity := 0 }
  | x :: xs => xs.foldl (fun b it => if beats it b then it else b) x

/-- The original claim's tie-break: lowest price. -/
def fullPickLowTie : List Item → Item
  | [] => { id := 0, title := "", url := "", image_link := "", price := 0, similarity := 0 }
  | x :: xs => xs.foldl (fun b it =>
      if b.similarity < it.similarity
        ∨ (b.similarity = it.similarity ∧ it.price < b.price)
      then it else b) x

/-- `pk` sits at position `j`, no candidate beats it, and it beats
every candidate before position `j`. -/
def IsPick (cat : List Item) (j : ℕ) (pk : Item) : Prop :=
  cat.get? j = some pk
  ∧ (∀ y ∈ cat, ¬ beats y pk)
  ∧ (∀ j2, j2 < j → ∀ y, cat.get? j2 = some y → beats pk y)

theorem fullPick_isPick (x : Item) (xs : List Item) :
    ∃ j, IsPick (x :: xs) j (fullPick (x :: xs)) := by
  suffices h : ∀ (l : List Item) (b : Item),
      ∃ j pk, (b :: l).get? j = some pk
        ∧ l.foldl (fun b it => if beats it b then it else b) b = pk
        ∧ (∀ y ∈ b :: l, ¬ beats y pk)
        ∧ (∀ j2, j2 < j → ∀ y, (b :: l).get? j2 = some y → beats pk y) by
    obtain ⟨j, pk, h1, h2, h3, h4⟩ := h xs x
    exact ⟨j, by rw [IsPick, fullPick, h2]; exact ⟨h1, h3, h4⟩⟩
  intro l
  induction l with
  | nil =>
    intro b
    refine ⟨0, b, rfl, rfl, ?_, ?_⟩
    · intro y hy
      rcases List.mem_singleton.1 hy with h
      subst h
      rw [beats_iff_key_lt]
      exact lt_irrefl _
    · intro j2 hj2
      omega
  | cons a l ih =>
    intro b
    rw [List.foldl_cons]
    by_cases hab : beats a b
    · rw [if_pos hab]
      obtain ⟨j, pk, h1, h2, h3, h4⟩ := ih a
      refine ⟨j + 1, pk, h1, h2, ?_, ?_⟩
      · intro y hy
        rcases List.mem_cons.1 hy with h | h
        · subst h
          have hapk : ¬ beats a pk := h3 a (List.mem_cons_self _ _)
          rw [beats_iff_key_lt] at hab hapk ⊢
          intro hlt
          exact hapk (lt_trans hlt hab)
        · exact h3 y h
      · intro j2 hj2 y hy
        cases j2 with
        | zero =>
          have hyb : y = b := Option.some_inj.1 hy.symm
          subst hyb
          have hapk : ¬ beats a pk := h3 a (List.mem_cons_self _ _)
          rw [beats_iff_key_lt] at hab hapk ⊢
          exact lt_of_lt_of_le hab (le_of_not_lt hapk)
        | succ j2 =>
          exact h4 j2 (by omega) y hy
    · rw [if_neg hab]
      obtain ⟨j, pk, h1, h2, h3, h4⟩ := ih b
      cases j with
      | zero =>
        have hpkb : pk = b := Option.some_inj.1 h1.symm
        refine ⟨0, pk, by rw [hpkb] ; rfl, h2, ?_, ?_⟩
        · intro y hy
          rcases List.mem_cons.1 hy with h | h
          · subst h
            exact h3 y (List.mem_cons_self _ _)
          · rcases List.mem_cons.1 h with h' | h'
            · subst h'
              rw [hpkb]
              exact hab
            · exact h3 y (List.mem_cons_of_mem _ h')
        · intro j2 hj2
          omega
      | succ j =>
        have hbj : pk ∈ b :: l := List.get?_mem h1
        have hpkb : beats pk b := h4 0 (by omega) b rfl
        refine ⟨j + 2, pk, h1, h2, ?_, ?_⟩
        · intro y hy
          rcases List.mem_cons.1 hy with h | h
          · subst h
            exact h3 y (List.mem_cons_self _ _)
          · rcases List.mem_cons.1 h with h' | h'
            · subst h'
              rw [beats_iff_key_lt] at hab hpkb ⊢
              intro hlt
              exact lt_irrefl _
                (lt_trans (lt_of_lt_of_le hlt (le_of_not_lt hab)) hpkb)
            · exact h3 y (List.mem_cons_of_mem _ h')
        · intro j2 hj2 y hy
          cases j2 with
          | zero =>
            have hyb : y = b := Option.some_inj.1 hy.symm
            subst hyb
            exact hpkb
          | succ j2 =>
            cases j2 with
            | zero =>
              have hya : y = a := Option.some_inj.1 hy.symm
              subst hya
              rw [beats_iff_key_lt] at hab hpkb ⊢
              exact lt_of_le_of_lt (le_of_not_lt hab) hpkb
            | succ j2 =>
              exact h4 (j2 + 1) (by omega) y hy

/-! ## Cents-order bridges and the stage invariant -/

theorem toCentsNat_lt_iff {p q : ℚ} (hp0 : 0 ≤ p) (hpc : CentPrec p)
    (hq0 : 0 ≤ q) (hqc : CentPrec q) :
    (toCents p).toNat < (toCents q).toNat ↔ p < q := by
  have h1 := toCents_exact hp0 hpc
  have h2 := toCents_exact hq0 hqc
  constructor
  · intro h
    have h3 : (((toCents p).toNat : ℕ) : ℚ) < (((toCents q).toNat : ℕ) : ℚ) := by
      exact_mod_cast h
    rw [h1, h2] at h3
    linarith
  · intro h
    have h3 : (((toCents p).toNat : ℕ) : ℚ) < (((toCents q).toNat : ℕ) : ℚ) := by
      rw [h1, h2]
      linarith
    exact_mod_cast h3

theorem toCentsNat_inj {p q : ℚ} (hp0 : 0 ≤ p) (hpc : CentPrec p)
    (hq0 : 0 ≤ q) (hqc : CentPrec q)
    (h : (toCents p).toNat = (toCents q).toNat) : p = q := by
  have h1 := toCents_exact hp0 hpc
  have h2 := toCents_exact hq0 hqc
  rw [h] at h1
  rw [h2] at h1
  linarith

/-- The shape of the value table after processing a prefix of
categories in the no-skip full run with an oversized budget: all
values are at most `S`, the peak `S` sits exactly at cost `C`, and
everything above `C` is strictly below the peak. -/
structure GoodDP (dp : ℕ → ℚ) (S : ℚ) (C : ℕ) : Prop where
  nonneg : 0 ≤ S
  bound : ∀ w, dp w ≤ S
  peak : dp C = S
  above : ∀ w, C < w → dp w < S

/-- All candidates of one category are positively scored, non-negative
whole-cent priced, and the category is non-empty. -/
def CatOK (cat : List Item) : Prop :=
  cat ≠ [] ∧ ∀ y ∈ cat, 0 < y.similarity ∧ 0 ≤ y.price ∧ CentPrec y.price

theorem enumFrom_decomp : ∀ (items : List PItem) (j : ℕ) (it0 : PItem) (n : ℕ),
    items.get? j = some it0 →
    ∃ E1 E2, List.enumFrom n items = E1 ++ (n + j, it0) :: E2
      ∧ ∀ q ∈ E1, q.1 < n + j := by
  intro items
  induction items with
  | nil => intro j it0 n h; cases h
  | cons a rest ih =>
    intro j it0 n h
    cases j with
    | zero =>
      have ha : a = it0 := Option.some_inj.1 h
      subst ha
      exact ⟨[], List.enumFrom (n + 1) rest, by rw [List.enumFrom_cons]; rfl,
        by intro q hq; cases hq⟩
    | succ j =>
      obtain ⟨E1, E2, heq, hlt⟩ := ih j it0 (n + 1) h
      refine ⟨(n, a) :: E1, E2, ?_, ?_⟩
      · rw [List.enumFrom_cons, heq]
        have harith : n + 1 + j = n + (j + 1) := by omega
        rw [harith]
        rfl
      · intro q hq
        rcases List.mem_cons.1 hq with h' | h'
        · subst h'
          simp only
          omega
        · have := hlt q h'
          omega

theorem stagePairs_decomp (items : List PItem) (W C j : ℕ) (it0 : PItem)
    (hC : C ≤ W) (hj : items.get? j = some it0) :
    ∃ L1 L2, stagePairs items W = L1 ++ (C, j, it0) :: L2
      ∧ ∀ p ∈ L1, p.1 < C ∨ (p.1 = C ∧ p.2.1 < j) := by
  obtain ⟨E1, E2, henum, hE1⟩ := enumFrom_decomp items j it0 0 hj
  have henum' : items.enum = E1 ++ (j, it0) :: E2 := by
    rw [List.enum, henum]
    simp
  have hsplit : List.range (W + 1)
      = List.range C ++ C :: (List.range (W - C)).map (fun x => C + (x + 1)) := by
    have h1 : W + 1 = C + (1 + (W - C)) := by omega
    rw [h1, List.range_add]
    congr 1
    rw [Nat.add_comm 1 (W - C), List.range_succ_eq_map, List.map_cons,
      List.map_map]
    rfl
  refine ⟨(List.range C).flatMap (fun c => (items.enum).map (fun q => (c, q)))
      ++ E1.map (fun q => ((C : ℕ), q)),
    E2.map (fun q => ((C : ℕ), q))
      ++ ((List.range (W - C)).map (fun x => C + (x + 1))).flatMap
          (fun c => (items.enum).map (fun q => (c, q))), ?_, ?_⟩
  · rw [stagePairs, hsplit, List.flatMap_append, List.flatMap_cons]
    rw [henum', List.map_append, List.map_cons]
    rw [List.append_assoc, List.append_assoc]
    rfl
  · intro p hp
    rcases List.mem_append.1 hp with h | h
    · obtain ⟨c, hc, hmem⟩ := List.mem_flatMap.1 h
      obtain ⟨q, _, hqe⟩ := List.mem_map.1 hmem
      subst hqe
      exact Or.inl (List.mem_range.1 hc)
    · obtain ⟨q, hq, hqe⟩ := List.mem_map.1 h
      subst hqe
      refine Or.inr ⟨rfl, ?_⟩
      show q.1 < j
      have := hE1 q hq
      omega

/-- One full-run stage: starting from a `GoodDP` table with peak `S`
at cost `C`, processing one well-formed category moves the peak to
`C + cents(pick)` with value `S + sim(pick)`, keeps the `GoodDP`
shape, and records the pick's index in the path row at the new peak. -/
theorem runStage_main (dp : ℕ → ℚ) (S : ℚ) (C W : ℕ) (cat : List Item)
    (j : ℕ) (pk : Item)
    (hgood : GoodDP dp S C)
    (hpick : IsPick cat j pk)
    (hcat : CatOK cat)
    (hW : C + (toCents pk.price).toNat ≤ W) :
    GoodDP (runStage dp (cat.map processItem) W).1 (S + pk.similarity)
        (C + (toCents pk.price).toNat)
    ∧ (runStage dp (cat.map processItem) W).2 (C + (toCents pk.price).toNat)
        = some j := by
  obtain ⟨hpk_get, hnobeat, hfirst⟩ := hpick
  have hpkmem : pk ∈ cat := List.get?_mem hpk_get
  have hM : 0 < pk.similarity := (hcat.2 pk hpkmem).1
  have hpk0 : 0 ≤ pk.price := (hcat.2 pk hpkmem).2.1
  have hpkc : CentPrec pk.price := (hcat.2 pk hpkmem).2.2
  have hsimle : ∀ y ∈ cat, y.similarity ≤ pk.similarity := by
    intro y hy
    have h := hnobeat y hy
    rw [beats] at h
    push_neg at h
    exact h.1
  have htie : ∀ y ∈ cat, y.similarity = pk.similarity → y.price ≤ pk.price := by
    intro y hy hsim
    have h := hnobeat y hy
    rw [beats] at h
    push_neg at h
    exact h.2 hsim.symm
  have hsimlt : ∀ y ∈ cat, pk.price < y.price → y.similarity < pk.similarity := by
    intro y hy hp
    rcases lt_or_eq_of_le (hsimle y hy) with h | h
    · exact h
    · exact absurd (htie y hy h) (not_le.2 hp)
  have hdecode : ∀ idx it, (cat.map processItem).get? idx = some it →
      ∃ y, cat.get? idx = some y ∧ it = processItem y := by
    intro idx it h
    rw [List.get?_map] at h
    cases hy : cat.get? idx with
    | none => rw [hy] at h; cases h
    | some y => rw [hy] at h; exact ⟨y, rfl, (Option.some_inj.1 h).symm⟩
  have hcgt : ∀ y ∈ cat, (toCents pk.price).toNat < (toCents y.price).toNat
      → pk.price < y.price := by
    intro y hy h
    exact (toCentsNat_lt_iff hpk0 hpkc (hcat.2 y hy).2.1 (hcat.2 y hy).2.2).1 h
  have hceq : ∀ y ∈ cat, (toCents y.price).toNat = (toCents pk.price).toNat
      → y.price = pk.price := by
    intro y hy h
    exact toCentsNat_inj (hcat.2 y hy).2.1 (hcat.2 y hy).2.2 hpk0 hpkc h
  have hget_map : (cat.map processItem).get? j = some (processItem pk) := by
    rw [List.get?_map, hpk_get]
    rfl
  obtain ⟨L1, L2, hdecomp, hL1⟩ := stagePairs_decomp (cat.map processItem) W C j
    (processItem pk) (by omega) hget_map
  have happly := runStage_apply dp (cat.map processItem) W
    (C + (toCents pk.price).toNat)
  have h0 : candVal dp W (C + (toCents pk.price).toNat) (C, j, processItem pk)
      = some (S + pk.similarity) := by
    rw [candVal, if_pos]
    · simp only [processItem]
      rw [hgood.peak]
    · refine ⟨by rw [hgood.peak]; exact hgood.nonneg, rfl, ?_⟩
      show C + (processItem pk).price_in_cents ≤ W
      simp only [processItem]
      omega
  have hlast : (stagePairs (cat.map processItem) W).foldl
      (maxStep (candVal dp W (C + (toCents pk.price).toNat)) (fun p => p.2.1))
      (dp (C + (toCents pk.price).toNat), none)
      = (S + pk.similarity, some j) := by
    rw [hdecomp]
    have hres := foldl_maxStep_lastWrite
      (candVal dp W (C + (toCents pk.price).toNat)) (fun p => p.2.1)
      L1 (C, j, processItem pk) L2 (S + pk.similarity) h0 ?_ ?_
      (dp (C + (toCents pk.price).toNat), none) ?_
    · exact hres
    · intro p hp v hv
      have hmem : p ∈ stagePairs (cat.map processItem) W := by
        rw [hdecomp]
        exact List.mem_append_left _ hp
      obtain ⟨hpW, hpget⟩ := stagePairs_decode hmem
      obtain ⟨y, hyget, hyeq⟩ := hdecode p.2.1 p.2.2 hpget
      have hymem : y ∈ cat := List.get?_mem hyget
      rw [candVal] at hv
      split_ifs at hv with hcond
      · obtain ⟨hg, hsum, hWle⟩ := hcond
        have hveq : v = dp p.1 + y.similarity := by
          rw [← Option.some_inj.1 hv, hyeq]
          simp [processItem]
        rw [hyeq] at hsum
        simp only [processItem] at hsum
        rcases hL1 p hp with hlt | ⟨hc_eq, hidxlt⟩
        · have hcy : (toCents pk.price).toNat < (toCents y.price).toNat := by
            omega
          have h1 := hgood.bound p.1
          have h2 := hsimlt y hymem (hcgt y hymem hcy)
          rw [hveq]
          linarith
        · have hcy : (toCents y.price).toNat = (toCents pk.price).toNat := by
            omega
          have hbt : beats pk y := hfirst p.2.1 hidxlt y hyget
          rw [beats] at hbt
          have hylt : y.similarity < pk.similarity := by
            rcases hbt with h | ⟨hseq, hplt⟩
            · exact h
            · exact absurd (hceq y hymem hcy) (ne_of_lt hplt)
          have h1 := hgood.bound p.1
          rw [hveq]
          linarith
    · intro p hp v hv
      have hmem : p ∈ stagePairs (cat.map processItem) W := by
        rw [hdecomp]
        exact List.mem_append_right _ (List.mem_cons_of_mem _ hp)
      obtain ⟨hpW, hpget⟩ := stagePairs_decode hmem
      obtain ⟨y, hyget, hyeq⟩ := hdecode p.2.1 p.2.2 hpget
      have hymem : y ∈ cat := List.get?_mem hyget
      rw [candVal] at hv
      split_ifs at hv with hcond
      · have hveq : v = dp p.1 + y.similarity := by
          rw [← Option.some_inj.1 hv, hyeq]
          simp [processItem]
        have h1 := hgood.bound p.1
        have h2 := hsimle y hymem
        rw [hveq]
        linarith
    · show dp (C + (toCents pk.price).toNat) < S + pk.similarity
      have h1 := hgood.bound (C + (toCents pk.price).toNat)
      linarith
  have hpair : ((runStage dp (cat.map processItem) W).1
        (C + (toCents pk.price).toNat),
      (runStage dp (cat.map processItem) W).2
        (C + (toCents pk.price).toNat)) = (S + pk.similarity, some j) := by
    rw [happly, hlast]
  have hpeak : (runStage dp (cat.map processItem) W).1
      (C + (toCents pk.price).toNat) = S + pk.similarity := by
    have h := congrArg Prod.fst hpair
    simpa using h
  have hrow : (runStage dp (cat.map processItem) W).2
      (C + (toCents pk.price).toNat) = some j := by
    have h := congrArg Prod.snd hpair
    simpa using h
  refine ⟨⟨by linarith [hgood.nonneg], ?_, hpeak, ?_⟩, hrow⟩
  · intro w
    rcases runStage_sound dp (cat.map processItem) W w with ⟨hbase, _⟩ |
      ⟨c, idx, it, hget, hg, hcw, hwle, hval, _⟩
    · rw [hbase]
      have := hgood.bound w
      linarith
    · obtain ⟨y, hyget, hyeq⟩ := hdecode idx it hget
      have hymem := List.get?_mem hyget
      rw [hval, hyeq]
      simp only [processItem]
      have h1 := hgood.bound c
      have h2 := hsimle y hymem
      linarith
  · intro w hw
    rcases runStage_sound dp (cat.map processItem) W w with ⟨hbase, _⟩ |
      ⟨c, idx, it, hget, hg, hcw, hwle, hval, _⟩
    · rw [hbase]
      have := hgood.bound w
      linarith
    · obtain ⟨y, hyget, hyeq⟩ := hdecode idx it hget
      have hymem := List.get?_mem hyget
      rw [hval, hyeq]
      simp only [processItem]
      by_cases hcC : C < c
      · have h1 := hgood.above c hcC
        have h2 := hsimle y hymem
        linarith
      · rw [hyeq] at hcw
        simp only [processItem] at hcw
        have hcy : (toCents pk.price).toNat < (toCents y.price).toNat := by
          omega
        have h3 := hsimlt y hymem (hcgt y hymem hcy)
        have h1 := hgood.bound c
        linarith

/-! ## The full-run master invariant -/

def pickCents (cat : List Item) : ℕ := (toCents (fullPick cat).price).toNat

def pickSim (cat : List Item) : ℚ := (fullPick cat).similarity

theorem fullPick_isPick' {cat : List Item} (h : cat ≠ []) :
    ∃ j, IsPick cat j (fullPick cat) := by
  cases cat with
  | nil => exact absurd rfl h
  | cons x xs => exact fullPick_isPick x xs

/-- Running the full (no-skip) DP over a list of well-formed
categories from a `GoodDP` table moves the peak by the picks' total
cents, raises it by the picks' total similarity, and the traceback
from the new peak collects exactly the per-category picks. -/
theorem runDP_full_master : ∀ (cats : List (List Item)) (dp : ℕ → ℚ) (S : ℚ)
    (C W : ℕ), GoodDP dp S C → (∀ cat ∈ cats, CatOK cat) →
    C + (cats.map pickCents).sum ≤ W →
    GoodDP (runDP W (cats.map (fun cat => cat.map processItem)) dp).1
        (S + (cats.map pickSim).sum) (C + (cats.map pickCents).sum)
    ∧ ∀ acc : List Item,
        ((cats.map (fun cat => cat.map processItem)).zip
            (runDP W (cats.map (fun cat => cat.map processItem)) dp).2).reverse.foldl
          traceStep (acc, C + (cats.map pickCents).sum)
        = (cats.map fullPick ++ acc, C) := by
  intro cats
  induction cats with
  | nil =>
    intro dp S C W hgood _ _
    constructor
    · simpa using hgood
    · intro acc
      simp [runDP]
  | cons cat rest ih =>
    intro dp S C W hgood hok hW
    have hcatok : CatOK cat := hok cat (List.mem_cons_self _ _)
    obtain ⟨j, hpick⟩ := fullPick_isPick' hcatok.1
    have hsums : ((cat :: rest).map pickCents).sum
        = pickCents cat + (rest.map pickCents).sum := by
      simp
    have hWs : C + pickCents cat ≤ W := by
      rw [hsums] at hW
      omega
    have hstage := runStage_main dp S C W cat j (fullPick cat) hgood hpick
      hcatok (by rw [hsums] at hW; rw [pickCents] at *; omega)
    obtain ⟨hgood1, hrow⟩ := hstage
    have hrest := ih (runStage dp (cat.map processItem) W).1 (S + pickSim cat)
      (C + pickCents cat) W (by rw [pickCents, pickSim] at *; exact hgood1)
      (fun c hc => hok c (List.mem_cons_of_mem _ hc))
      (by rw [hsums] at hW; omega)
    obtain ⟨hgoodF, htrace⟩ := hrest
    constructor
    · have e1 : S + ((cat :: rest).map pickSim).sum
          = (S + pickSim cat) + (rest.map pickSim).sum := by
        simp
        ring
      have e2 : C + ((cat :: rest).map pickCents).sum
          = (C + pickCents cat) + (rest.map pickCents).sum := by
        simp
        omega
      rw [e1, e2]
      have hshape : (runDP W ((cat :: rest).map (fun cat => cat.map processItem)) dp).1
          = (runDP W (rest.map (fun cat => cat.map processItem))
              (runStage dp (cat.map processItem) W).1).1 := by
        rw [List.map_cons, runDP]
      rw [hshape]
      exact hgoodF
    · intro acc
      have hshape2 : (cat :: rest).map (fun cat => cat.map processItem)
          = (cat.map processItem) :: rest.map (fun cat => cat.map processItem) :=
        List.map_cons _ _ _
      rw [hshape2, runDP]
      simp only [List.zip_cons_cons, List.reverse_cons, List.foldl_append]
      have hinit : C + ((cat :: rest).map pickCents).sum
          = (C + pickCents cat) + (rest.map pickCents).sum := by
        simp
        omega
      rw [hinit, htrace acc]
      rw [List.foldl_cons, List.foldl_nil]
      rw [traceStep]
      simp only
      have hrow' : (runStage dp (cat.map processItem) W).2 (C + pickCents cat)
          = some j := by
        rw [pickCents]
        exact hrow
      rw [hrow']
      simp only [Option.elim]
      have hget : (cat.map processItem).get? j = some (processItem (fullPick cat)) := by
        rw [List.get?_map, hpick.1]
        rfl
      rw [hget]
      simp only [Option.elim]
      have hM : 0 < (fullPick cat).similarity :=
        (hcatok.2 _ (List.get?_mem hpick.1)).1
      rw [if_pos (Or.inr (by simp [processItem]; exact ne_of_gt hM))]
      simp only [processItem]
      rw [List.map_cons, List.cons_append]
      congr 1
      show C + pickCents cat - (toCents (fullPick cat).price).toNat = C
      rw [pickCents]
      omega

/-! ## `get_outfit` full-run characterization -/

theorem listMax_mem : ∀ (l : List ℚ), l ≠ [] → listMax l ∈ l := by
  have haux : ∀ (xs : List ℚ) (b : ℚ), xs.foldl max b = b ∨ xs.foldl max b ∈ xs := by
    intro xs
    induction xs with
    | nil => intro b; exact Or.inl rfl
    | cons a xs ih =>
      intro b
      rw [List.foldl_cons]
      rcases ih (max b a) with h | h
      · rw [h]
        rcases max_choice b a with h' | h'
        · exact Or.inl h'
        · exact Or.inr (by rw [h']; exact List.mem_cons_self _ _)
      · exact Or.inr (List.mem_cons_of_mem _ h)
  intro l hl
  cases l with
  | nil => exact absurd rfl hl
  | cons x xs =>
    rw [listMax]
    rcases haux xs x with h | h
    · rw [h]
      exact List.mem_cons_self _ _
    · exact List.mem_cons_of_mem _ h

theorem le_listMax : ∀ (l : List ℚ), ∀ x ∈ l, x ≤ listMax l := by
  have hb : ∀ (xs : List ℚ) (b : ℚ), b ≤ xs.foldl max b := by
    intro xs
    induction xs with
    | nil => intro b; exact le_refl _
    | cons a xs ih =>
      intro b
      rw [List.foldl_cons]
      exact le_trans (le_max_left b a) (ih _)
  have haux : ∀ (xs : List ℚ) (b : ℚ), ∀ x ∈ xs, x ≤ xs.foldl max b := by
    intro xs
    induction xs with
    | nil => intro b x hx; cases hx
    | cons a xs ih =>
      intro b x hx
      rcases List.mem_cons.1 hx with h | h
      · subst h
        rw [List.foldl_cons]
        exact le_trans (le_max_right b x) (hb _ _)
      · rw [List.foldl_cons]
        exact ih _ x h
  intro l x hx
  cases l with
  | nil => cases hx
  | cons y ys =>
    rw [listMax]
    rcases List.mem_cons.1 hx with h | h
    · subst h
      exact hb ys x
    · exact haux ys y x h

theorem goodDP_dp0 : GoodDP dp0 0 0 := by
  refine ⟨le_refl _, ?_, rfl, ?_⟩
  · intro w
    rw [dp0]
    by_cases h : w = 0
    · rw [if_pos h]
    · rw [if_neg h]
      norm_num
  · intro w hw
    rw [dp0, if_neg (by omega)]
    norm_num

theorem pickSim_nonneg {cats : List (List Item)}
    (hok : ∀ cat ∈ cats, CatOK cat) :
    ∀ x ∈ cats.map pickSim, 0 < x := by
  intro x hx
  obtain ⟨cat, hcat, hceq⟩ := List.mem_map.1 hx
  have hmem : fullPick cat ∈ cat := by
    obtain ⟨j, hp⟩ := fullPick_isPick' (hok cat hcat).1
    exact List.get?_mem hp.1
  rw [← hceq, pickSim]
  exact ((hok cat hcat).2 _ hmem).1

/-- The DP over the no-skip candidate lists with a budget at least the
picks' total cents returns exactly the per-category picks, their total
similarity, and their total cents. -/
theorem run_knapsack_full (cats : List (List Item)) (W n : ℕ)
    (hok : ∀ cat ∈ cats, CatOK cat)
    (hW : (cats.map pickCents).sum ≤ W) :
    run_knapsack_dp (cats.map (fun cat => cat.map processItem)) W n
      = (cats.map fullPick, (cats.map pickSim).sum,
          (((cats.map pickCents).sum : ℕ) : ℤ)) := by
  obtain ⟨hgoodF, htrace⟩ := runDP_full_master cats dp0 0 0 W goodDP_dp0 hok
    (by omega)
  simp only [zero_add] at hgoodF htrace
  have hSM0 : 0 ≤ (cats.map pickSim).sum :=
    List.sum_nonneg (fun x hx => le_of_lt (pickSim_nonneg hok x hx))
  have hscan : bestScan
      (runDP W (cats.map (fun cat => cat.map processItem)) dp0).1 W
      = ((cats.map pickSim).sum, (((cats.map pickCents).sum : ℕ) : ℤ)) := by
    have h1 := bestScan_eq_of_max
      (runDP W (cats.map (fun cat => cat.map processItem)) dp0).1 W
      ((cats.map pickCents).sum) hW
      (by rw [hgoodF.peak]; linarith)
      (by intro c hc; rw [hgoodF.peak]; exact hgoodF.bound c)
      (by intro c hgt hcW; rw [hgoodF.peak]; exact hgoodF.above c hgt)
    rw [h1, hgoodF.peak]
  simp only [run_knapsack_dp]
  rw [hscan]
  by_cases hne : cats = []
  · subst hne
    rw [if_neg]
    · rfl
    · intro h
      have h2 := h.2
      simp at h2
  · have hSMpos : 0 < (cats.map pickSim).sum :=
      List.sum_pos _ (pickSim_nonneg hok) (by simpa using hne)
    rw [if_pos ⟨by positivity, hSMpos⟩]
    rw [traceback]
    have htoNat : ((((cats.map pickCents).sum : ℕ) : ℤ)).toNat
        = (cats.map pickCents).sum := Int.toNat_natCast _
    rw [htoNat, htrace []]
    rw [List.append_nil]

/-- With every category non-empty, positively scored and whole-cent
priced, and a non-negative budget, the full-outfit component of
`get_outfit` is exactly the per-category `fullPick`, formatted. -/
theorem get_outfit_full_characterization (all_candidates : List (List Item))
    (b : ℚ) (hb0 : 0 ≤ b) (hok : ∀ cat ∈ all_candidates, CatOK cat) :
    Except.map GetOutfitResult.best_full_outfit (get_outfit all_candidates (some b))
      = .ok (all_candidates.map (fun cat => formatOne (fullPick cat))) := by
  have hemp : ¬ (all_candidates.any (·.isEmpty) = true) := by
    intro h
    obtain ⟨cat, hcat, hiso⟩ := List.any_eq_true.1 h
    exact (hok cat hcat).1 (List.isEmpty_iff.1 hiso)
  have hmbc : ¬ (round (100 * b) < 0) := by
    have := round_nonneg' (show (0 : ℚ) ≤ 100 * b by linarith)
    omega
  have hpickle : ∀ cat ∈ all_candidates, ((pickCents cat : ℕ) : ℚ)
      ≤ 100 * listMax (cat.map Item.price) := by
    intro cat hcat
    have hmem : fullPick cat ∈ cat := by
      obtain ⟨j, hp⟩ := fullPick_isPick' (hok cat hcat).1
      exact List.get?_mem hp.1
    rw [pickCents,
      toCents_exact ((hok cat hcat).2 _ hmem).2.1 ((hok cat hcat).2 _ hmem).2.2]
    have := le_listMax (cat.map Item.price) (fullPick cat).price
      (List.mem_map.2 ⟨fullPick cat, hmem, rfl⟩)
    linarith
  have hmaxprec : ∀ cat ∈ all_candidates, 0 ≤ listMax (cat.map Item.price)
      ∧ CentPrec (listMax (cat.map Item.price)) := by
    intro cat hcat
    have hne : cat.map Item.price ≠ [] := by
      intro h
      exact (hok cat hcat).1 (List.map_eq_nil.1 h)
    obtain ⟨y, hy, hyeq⟩ := List.mem_map.1 (listMax_mem (cat.map Item.price) hne)
    rw [← hyeq]
    exact ⟨((hok cat hcat).2 y hy).2.1, ((hok cat hcat).2 y hy).2.2⟩
  have hmaxsum : ∀ (l : List (List Item)),
      (∀ cat ∈ l, 0 ≤ listMax (cat.map Item.price)
        ∧ CentPrec (listMax (cat.map Item.price))) →
      CentPrec ((l.map (fun cat => listMax (cat.map Item.price))).sum)
        ∧ 0 ≤ (l.map (fun cat => listMax (cat.map Item.price))).sum := by
    intro l
    induction l with
    | nil => exact fun _ => ⟨⟨0, by norm_num⟩, le_refl _⟩
    | cons c rest ih =>
      intro hl
      obtain ⟨h10, ⟨k1, hk1⟩⟩ := hl c (List.mem_cons_self _ _)
      obtain ⟨⟨k2, hk2⟩, h20⟩ := ih (fun cat hc => hl cat (List.mem_cons_of_mem _ hc))
      rw [List.map_cons, List.sum_cons]
      refine ⟨⟨k1 + k2, ?_⟩, by linarith⟩
      push_cast
      rw [mul_add, hk1, hk2]
  obtain ⟨⟨ktot, hktot⟩, htot0⟩ := hmaxsum all_candidates hmaxprec
  have hsum_le : (((all_candidates.map pickCents).sum : ℕ) : ℚ)
      ≤ 100 * (all_candidates.map (fun cat => listMax (cat.map Item.price))).sum := by
    rw [Nat.cast_list_sum, List.map_map]
    rw [← List.sum_map_mul_left]
    exact List.sum_le_sum hpickle
  have hhuge : (all_candidates.map pickCents).sum
      ≤ (round (100 * (all_candidates.map (fun cat => listMax (cat.map Item.price))).sum)
          + round (100 * b) + 1000).toNat := by
    have h1 : (((all_candidates.map pickCents).sum : ℕ) : ℚ) ≤ (ktot : ℚ) := by
      rw [← hktot]
      exact hsum_le
    have h2 : (((all_candidates.map pickCents).sum : ℕ) : ℤ) ≤ ktot := by
      have h2' : ((((all_candidates.map pickCents).sum : ℕ) : ℤ) : ℚ)
          ≤ ((ktot : ℤ) : ℚ) := by
        rw [Int.cast_natCast]
        exact h1
      exact Int.cast_le.mp h2'
    have h3 : round (100 *
        (all_candidates.map (fun cat => listMax (cat.map Item.price))).sum) = ktot := by
      rw [hktot, round_intCast]
    have h4 : 0 ≤ round (100 * b) := round_nonneg' (by linarith)
    omega
  have hfull := run_knapsack_full all_candidates
    ((round (100 * (all_candidates.map (fun cat => listMax (cat.map Item.price))).sum)
        + round (100 * b) + 1000).toNat)
    all_candidates.length hok hhuge
  simp only [get_outfit]
  rw [if_neg hemp, if_neg hmbc, hfull]
  show Except.ok (format_results (all_candidates.map fullPick)) = _
  rw [format_results, List.map_map]
  rfl

/-! ## Claim C3 -/

/-- Two equally scored items with different prices, for the tie-break
counterexample. -/
def tieA : Item :=
  { id := 1, title := "a", url := "", image_link := "", price := 1, similarity := 1 }

def tieB : Item :=
  { id := 2, title := "b", url := "", image_link := "", price := 2, similarity := 1 }

theorem tie_catOK : ∀ cat ∈ [[tieA, tieB]], CatOK cat := by
  intro cat hcat
  rcases List.mem_singleton.1 hcat with h
  subst h
  refine ⟨by simp, ?_⟩
  intro y hy
  rcases List.mem_cons.1 hy with h | h
  · subst h
    exact ⟨by norm_num [tieA], by norm_num [tieA], ⟨100, by norm_num [tieA]⟩⟩
  · rcases List.mem_singleton.1 h with h'
    subst h'
    exact ⟨by norm_num [tieB], by norm_num [tieB], ⟨200, by norm_num [tieB]⟩⟩

/-- C3 counterexample: one category with two candidates of equal
similarity priced 1 and 2.  The full-outfit optimizer returns the
HIGHER-priced candidate, while the claim's lowest-price tie-break
would return the cheaper one. -/
theorem full_optimizer_tie_prefers_higher_price :
    Except.map GetOutfitResult.best_full_outfit (get_outfit [[tieA, tieB]] (some 1))
      = .ok [formatOne tieB]
    ∧ fullPickLowTie [tieA, tieB] = tieA
    ∧ formatOne tieB ≠ formatOne tieA := by
  refine ⟨?_, ?_, ?_⟩
  · have h := get_outfit_full_characterization [[tieA, tieB]] 1 (by norm_num)
      tie_catOK
    have hpick : fullPick [tieA, tieB] = tieB := by
      rw [fullPick, List.foldl_cons, List.foldl_nil, if_pos]
      rw [beats]
      norm_num [tieA, tieB]
    rw [h, List.map_singleton, hpick]
  · rw [fullPickLowTie, List.foldl_cons, List.foldl_nil, if_neg]
    norm_num [tieA, tieB]
  · intro h
    have := congrArg Item.id h
    norm_num [formatOne, tieA, tieB] at this

/-- C3 (amended): for every candidate matrix with no empty category
list, positive similarities and non-negative whole-cent prices, and a
non-negative budget, the full-outfit optimizer selects exactly one
candidate per category; its per-category pick is the candidate of
maximum quality chosen independently of the other categories, with
ties broken by HIGHEST price and then by first enumeration order. -/
theorem full_optimizer_independent_argmax (all_candidates : List (List Item))
    (b : ℚ) (hb0 : 0 ≤ b) (hok : ∀ cat ∈ all_candidates, CatOK cat) :
    Except.map GetOutfitResult.best_full_outfit (get_outfit all_candidates (some b))
      = .ok (all_candidates.map (fun cat => formatOne (fullPick cat)))
    ∧ (all_candidates.map (fun cat => formatOne (fullPick cat))).length
      = all_candidates.length :=
  ⟨get_outfit_full_characterization all_candidates b hb0 hok,
    List.length_map _ _⟩

/-- C3 witness: the amended theorem at the concrete tie matrix. -/
theorem full_optimizer_independent_argmax_witness :
    Except.map GetOutfitResult.best_full_outfit (get_outfit [[tieA, tieB]] (some 1))
      = .ok ([[tieA, tieB]].map (fun cat => formatOne (fullPick cat))) :=
  (full_optimizer_independent_argmax [[tieA, tieB]] 1 (by norm_num) tie_catOK).1

/-! ## A fully evaluated `get_outfit` run (the C7 instance) -/

theorem round_eq_int {q : ℚ} {k : ℤ} (h : q = (k : ℚ)) : round q = k := by
  rw [h, round_intCast]

/-- A 2-cent candidate for the concrete end-to-end run. -/
def exItem2 : Item :=
  { id := 2, title := "wool socks", url := "u2", image_link := "img2",
    price := 2/100, similarity := 1 }

/-- The result `get_outfit` returns on `[[exItem2]]` with a 3-cent
budget: the item is selected, 1 cent remains, and the best full outfit
is the same item at cost `0.02`. -/
def exResult2 : GetOutfitResult :=
  { feasible_outfit := [formatOne exItem2]
    feasible_remaining_budget := 1/100
    best_full_outfit := [formatOne exItem2]
    best_full_cost := 2/100 }

/-- C7 witness: the theorem at the one-category matrix holding a
single 2-cent item under a 3-cent budget; `get_outfit` selects the
item with 1 cent remaining, and its total price `0.02` is within the
budget `0.03`. -/
theorem feasible_outfit_cost_within_budget_witness :
    get_outfit [[exItem2]] (some (3/100)) = .ok exResult2
    ∧ (exResult2.feasible_outfit.map Item.price).sum ≤ (3/100 : ℚ) := by
  have hemp : ¬ ([[exItem2]].any (·.isEmpty) = true) := by simp
  have hr3 : round (100 * ((3:ℚ)/100)) = 3 := round_eq_int (by norm_num)
  have hr2 : round (100 *
      (List.map (fun cat => listMax (List.map Item.price cat)) [[exItem2]]).sum) = 2 :=
    round_eq_int (by norm_num [listMax, exItem2])
  have hmbc : ¬ (round (100 * ((3:ℚ)/100)) < 0) := by
    rw [hr3]
    norm_num
  have hok : ∀ cat ∈ [[exItem2]], CatOK cat := by
    intro cat hcat
    rcases List.mem_singleton.1 hcat with h
    subst h
    refine ⟨by simp, ?_⟩
    intro y hy
    rcases List.mem_singleton.1 hy with h2
    subst h2
    exact ⟨by norm_num [exItem2], by norm_num [exItem2], ⟨2, by norm_num [exItem2]⟩⟩
  have htc : (toCents ((2:ℚ)/100)).toNat = 2 := by
    rw [toCents, round_eq_int (show (100:ℚ) * (2/100) = ((2:ℤ):ℚ) by norm_num)]
    rfl
  have hproc : processItem exItem2
      = { price_in_cents := 2, similarity := 1, data := exItem2 } := by
    simp only [processItem]
    rw [show exItem2.price = (2:ℚ)/100 from rfl,
      show exItem2.similarity = (1:ℚ) from rfl, htc]
  have hpcents : pickCents [exItem2] = 2 := by
    rw [pickCents, show fullPick [exItem2] = exItem2 from rfl,
      show exItem2.price = (2:ℚ)/100 from rfl]
    exact htc
  have hfeas : run_knapsack_dp
      (feasibleLists (List.map (fun cat => List.map processItem cat) [[exItem2]]))
      (round (100 * ((3:ℚ)/100))).toNat ([[exItem2]].length)
      = ([exItem2], 1, 2) := by
    rw [hr3]
    show run_knapsack_dp (feasibleLists [[processItem exItem2]]) 3 1 = ([exItem2], 1, 2)
    rw [hproc]
    norm_num [run_knapsack_dp, runDP, runStage, costStep, itemStep, dp0,
      List.range_succ, Function.update, List.enum, List.enumFrom,
      bestScan, scanStep, feasibleLists, skip_item, traceback, traceStep,
      Option.elim, List.zip, List.zipWith, List.get?,
      show Int.toNat 2 = 2 from rfl]
  have hW : ([[exItem2]].map pickCents).sum
      ≤ (round (100 *
          (List.map (fun cat => listMax (List.map Item.price cat)) [[exItem2]]).sum)
        + round (100 * ((3:ℚ)/100)) + 1000).toNat := by
    rw [hr2, hr3]
    simp [hpcents]
  have hfullRes : run_knapsack_dp
      (List.map (fun cat => List.map processItem cat) [[exItem2]])
      ((round (100 *
          (List.map (fun cat => listMax (List.map Item.price cat)) [[exItem2]]).sum)
        + round (100 * ((3:ℚ)/100)) + 1000).toNat) ([[exItem2]].length)
      = ([exItem2], 1, 2) := by
    rw [run_knapsack_full [[exItem2]] _ _ hok hW]
    simp only [List.map_cons, List.map_nil, List.sum_cons, List.sum_nil, hpcents]
    rw [show fullPick [exItem2] = exItem2 from rfl, pickSim,
      show fullPick [exItem2] = exItem2 from rfl,
      show exItem2.similarity = (1:ℚ) from rfl]
    norm_num
  have hc : get_outfit [[exItem2]] (some (3/100)) = .ok exResult2 := by
    simp only [get_outfit]
    rw [if_neg hemp, if_neg hmbc, hfeas, hfullRes]
    simp only [exResult2, Except.ok.injEq, GetOutfitResult.mk.injEq, format_results,
      List.map_cons, List.map_nil]
    norm_num
  exact ⟨hc, feasible_outfit_cost_within_budget [[exItem2]] (3/100) (by norm_num)
    ⟨3, by norm_num⟩
    (by
      intro cat hcat it hit
      rcases List.mem_singleton.1 hcat with h
      subst h
      rcases List.mem_singleton.1 hit with h2
      subst h2
      exact ⟨by norm_num [exItem2], ⟨2, by norm_num [exItem2]⟩⟩)
    exResult2 hc⟩

end StyleFinder
